import Mathlib

/-!
Verification of the entity-resolution subsystem of a document-management
backend (`app/services/entity_resolution.py`, with the calling pipeline in
`app/services/sync.py`).

The Python code is shallowly embedded: pandas rows become Lean structures,
string manipulation is carried out over `List Char` (Python `str` values are
sequences of code points, matched here by `String.data`), Python `set`s of
tokens are represented by their canonical sorted duplicate-free lists, dicts
become association lists with insertion-order semantics, and the exception
raised by `resolve_entities` is modelled with `Except`.  All definitions are
executable.
-/

set_option maxRecDepth 100000

namespace EntityResolution

/-- Convenience: code points of a string literal. -/
def toC (s : String) : List Char := s.data

/-- ASCII uppercasing of one character, as CPython `str.upper` acts on the
ASCII letters occurring in this data model. -/
def upChar (c : Char) : Char :=
  if 97 ≤ c.toNat ∧ c.toNat ≤ 122 then Char.ofNat (c.toNat - 32) else c

/-- The punctuation class of `_normalize_name`'s first regex:
`[.,;:\-'"()&]`. -/
def punctChars : List Char := ['.', ',', ';', ':', '-', '\'', '"', '(', ')', '&']

/-- Replace punctuation with a space (second step of `_normalize_name`). -/
def punctToSpace (c : Char) : Char :=
  if c ∈ punctChars then ' ' else c

/-- Split a character sequence on whitespace runs, dropping empty pieces:
the behaviour of Python `str.split()` with no argument. -/
def wordsOf (cs : List Char) : List (List Char) :=
  ((cs.splitOnP (fun c => c.isWhitespace)).filter (fun w => decide (w ≠ [])))

/-- The word list of `_normalize_name(name)`: uppercase, punctuation to
spaces, then whitespace split.  Joining these words with single spaces gives
the normalized string itself; since the words are nonempty and contain no
whitespace, two names have equal normalized strings iff they have equal word
lists, so word lists serve as the normalized-name grouping key. -/
def normWordsOf (name : String) : List (List Char) :=
  wordsOf ((name.data.map upChar).map punctToSpace)

/-- Single-space joining, the effect of `' '.join` / the `\s+ -> ' '` regex. -/
def joinWords : List (List Char) → List Char
  | [] => []
  | [w] => w
  | w :: ws => w ++ ' ' :: joinWords ws

/-- The normalized name as characters (`_normalize_name`). -/
def normalizeName (name : String) : List Char :=
  joinWords (normWordsOf name)

/-- Lexicographic code-point comparison of token strings, the order used by
Python `sorted` on `str`. -/
def tokLt : List Char → List Char → Bool
  | [], [] => false
  | [], _ :: _ => true
  | _ :: _, [] => false
  | a :: as, b :: bs =>
    if a.toNat < b.toNat then true
    else if b.toNat < a.toNat then false
    else tokLt as bs

/-- Insert into an ascending list (helper for `tokSort`). -/
def insTok (x : List Char) : List (List Char) → List (List Char)
  | [] => [x]
  | y :: ys => if tokLt y x then y :: insTok x ys else x :: y :: ys

/-- Ascending insertion sort by `tokLt`; on duplicate-free inputs this is the
unique sorted arrangement, i.e. Python `sorted` of the underlying set. -/
def tokSort (l : List (List Char)) : List (List Char) :=
  l.foldr insTok []

/-- Tail of `firstDedup`: drop elements already seen. -/
def firstDedupAux {α : Type} [DecidableEq α] (seen : List α) : List α → List α
  | [] => []
  | x :: xs =>
    if x ∈ seen then firstDedupAux seen xs
    else x :: firstDedupAux (x :: seen) xs

/-- Keep the first occurrence of each element (Python `dict`/`set` insertion
order semantics). -/
def firstDedup {α : Type} [DecidableEq α] (l : List α) : List α :=
  firstDedupAux [] l

/-- Canonical representation of Python `set(norm.split())`: sorted and
duplicate-free, so two token sets are equal as sets iff their canonical
lists are equal. -/
def tokenSetOf (ws : List (List Char)) : List (List Char) :=
  tokSort (firstDedup ws)

/-- Membership test for token lists. -/
def tokMem (t : List Char) (l : List (List Char)) : Bool :=
  decide (t ∈ l)

/-- Set inclusion of token sets (`a <= b` on Python sets). -/
def tokSubset (a b : List (List Char)) : Bool :=
  a.all (fun t => tokMem t b)

/-- Strict inclusion (`a < b` on Python sets). -/
def tokStrictSubset (a b : List (List Char)) : Bool :=
  tokSubset a b ∧ ¬ tokSubset b a

/-- Inner loop of `_levenshtein`'s dynamic program: given the previous row
(aligned so that its head is `prev[j]`) and `curr[j]`, produce the rest of
the current row. -/
def levInner (ca : Char) : List Char → List Nat → Nat → List Nat
  | cb :: bs, pj :: pj1 :: prest, currj =>
    let v := min (pj1 + 1) (min (currj + 1) (pj + (if ca = cb then 0 else 1)))
    v :: levInner ca bs (pj1 :: prest) v
  | _, _, _ => []

/-- Outer loop of `_levenshtein`: fold the rows over the characters of `a`,
returning the last entry of the final row. -/
def levOuter : List Char → List Char → List Nat → Nat → Nat
  | [], _, prev, _ => (prev.getLast?).getD 0
  | ca :: as, bs, prev, i =>
    levOuter as bs ((i + 1) :: levInner ca bs prev (i + 1)) (i + 1)

/-- Body of `_levenshtein` after the length normalization. -/
def levCore (a b : List Char) : Nat :=
  if b.length = 0 then a.length
  else levOuter a b (List.range (b.length + 1)) 0

/-- `_levenshtein`: standard edit distance, with the argument swap so the
first argument is the longer one. -/
def levenshtein (a b : List Char) : Nat :=
  if a.length < b.length then levCore b a else levCore a b

/-- The fixed role-word vocabulary of `_is_proper_noun`. -/
def roleIndicators : List (List Char) :=
  [toC "EMPLOYEE", toC "EMPLOYER", toC "OFFICER", toC "MEMBER", toC "REPRESENTATIVE",
   toC "APPLICANT", toC "BENEFICIARY", toC "CLAIMANT", toC "VETERAN", toC "SPOUSE",
   toC "GUARDIAN", toC "CUSTODIAN", toC "ATTORNEY", toC "AGENT", toC "PROVIDER",
   toC "SUPERVISOR", toC "DIRECTOR", toC "MANAGER", toC "TENANT", toC "OWNER",
   toC "HOLDER", toC "SIGNER", toC "PATIENT", toC "CLIENT", toC "CUSTOMER",
   toC "INSURED", toC "SUBSCRIBER", toC "PURCHASER", toC "SELLER", toC "BUYER",
   toC "OCCUPANT", toC "RESIDENT", toC "PERSONNEL", toC "WORKER", toC "STAFF",
   toC "CAREGIVER", toC "DEPENDENT", toC "CHILD", toC "PARENT", toC "FAMILY",
   toC "HEIRS", toC "SUCCESSORS", toC "ASSIGNS", toC "PARTIES", toC "PERSON",
   toC "INDIVIDUALS", toC "TAXPAYER", toC "PAYER", toC "PAYEE", toC "DEBTOR"]

/-- `_is_proper_noun`: nonempty token set, no role word, and a single token
must not exceed 12 characters. -/
def isProperNoun (name : String) : Bool :=
  let ts := tokenSetOf (normWordsOf name)
  match ts with
  | [] => false
  | [t] => ¬ (t ∈ roleIndicators) ∧ ¬ (t.length > 12)
  | _ => ¬ ts.any (fun t => decide (t ∈ roleIndicators))

/-- Word characters for the regex `\b` boundary (`[A-Za-z0-9_]`). -/
def isWordChar (c : Char) : Bool :=
  c.isAlphanum || c = '_'

/-- Does this character sequence start with the word `AND` followed by a
word boundary? -/
def startsAND : List Char → Bool
  | 'A' :: 'N' :: 'D' :: rest =>
    match rest with
    | [] => true
    | c :: _ => ¬ isWordChar c
  | _ => false

/-- Scan for `\bAND\b`; the Boolean argument records whether the previous
character was a word character (so the boundary before `AND` holds). -/
def containsANDWord : Bool → List Char → Bool
  | _, [] => false
  | prevWord, c :: rest =>
    (¬ prevWord ∧ startsAND (c :: rest)) || containsANDWord (isWordChar c) rest

/-- `_is_joint_entity`: the original name, uppercased, matches `&|\bAND\b`. -/
def isJointEntity (name : String) : Bool :=
  let u := name.data.map upChar
  decide ('&' ∈ u) || containsANDWord false u

/-- `_middle_initial_conflicts`, expressed on the two normalized word lists
(the Python function recomputes `_normalize_name(..).split()` from the raw
names; every call site below passes exactly those recomputed lists). -/
def middleInitialConflicts (ta tb : List (List Char)) : Bool :=
  if ta.length ≠ tb.length ∨ ta.length < 3 then false
  else (ta.zip tb).any (fun p => decide (p.1.length = 1 ∧ p.2.length = 1 ∧ p.1 ≠ p.2))

/-- `KNOWN_ALIASES`: alternate surname to canonical surname. -/
def knownAliases : List (List Char × List Char) :=
  [(toC "MCADAM", toC "MCCARN")]

/-- Dictionary lookup in `KNOWN_ALIASES`. -/
def aliasLookup (t : List Char) : Option (List Char) :=
  (knownAliases.find? (fun p => decide (p.1 = t))).map (fun p => p.2)

/-- The word list of `_apply_known_aliases(name).split()`.  When the
normalized name has no tokens, the Python function returns the *raw* name,
whose whitespace split is taken by the callers; otherwise the last token is
replaced through `KNOWN_ALIASES` when it matches. -/
def aliasWordsOf (name : String) : List (List Char) :=
  match (normWordsOf name).getLast? with
  | none => wordsOf name.data
  | some last =>
    match aliasLookup last with
    | some canon => (normWordsOf name).dropLast ++ [canon]
    | none => normWordsOf name

/-- One row of the entities table.  The name column is `title` (GraphRAG
writes `title`; the code falls back to a `name` column handled identically,
so a single field stands for whichever is present).  `id` is already a
string, making the `astype(str)` casts identities. -/
structure Entity where
  id : String
  title : String
  typ : String
  description : String
  degree : Option Int
deriving DecidableEq

/-- The per-entity record precomputed at the top of
`_find_merge_candidates`.  `normL` is the normalized name's word list
(equal word lists characterize equal normalized strings), `tokens` and
`aliasTokens` are the canonical sorted forms of the Python token sets. -/
structure Rec where
  id : String
  name : List Char
  normL : List (List Char)
  tokens : List (List Char)
  aliasL : List (List Char)
  aliasTokens : List (List Char)
  isProper : Bool
  isJoint : Bool
deriving DecidableEq

/-- Build the record of one person entity. -/
def buildRec (e : Entity) : Rec :=
  { id := e.id
    name := e.title.data
    normL := normWordsOf e.title
    tokens := tokenSetOf (normWordsOf e.title)
    aliasL := aliasWordsOf e.title
    aliasTokens := tokenSetOf (aliasWordsOf e.title)
    isProper := isProperNoun e.title
    isJoint := isJointEntity e.title }

/-- The `type.str.upper() == "PERSON"` mask. -/
def isPersonType (t : String) : Bool :=
  decide (t.data.map upChar = toC "PERSON")

/-- Group a list by a key, keys in first-occurrence order and each group in
list order: the observable behaviour of filling a `defaultdict(list)` and
iterating `.items()`. -/
def groupByKey {κ : Type} [DecidableEq κ] (f : Rec → κ) (l : List Rec) :
    List (κ × List Rec) :=
  (firstDedup (l.map f)).map (fun k => (k, l.filter (fun r => decide (f r = k))))

/-- First maximal element by a `Nat` measure (Python `max` with a key
returns the first of the maximal elements). -/
def maxByNat (f : Rec → Nat) : List Rec → Option Rec
  | [] => none
  | x :: xs => some (xs.foldl (fun acc r => if f r > f acc then r else acc) x)

/-- Lexicographic strict comparison of `(token count, name length)` keys. -/
def lexGt (a b : Nat × Nat) : Bool :=
  decide (a.1 > b.1 ∨ (a.1 = b.1 ∧ a.2 > b.2))

/-- The `(len(tokens), len(name))` sort key used by strategies 2 and 2b. -/
def tokNameKey (r : Rec) : Nat × Nat :=
  (r.tokens.length, r.name.length)

/-- First maximal element by `tokNameKey`. -/
def maxByTokName : List Rec → Option Rec
  | [] => none
  | x :: xs => some (xs.foldl (fun acc r => if lexGt (tokNameKey r) (tokNameKey acc) then r else acc) x)

/-- `_pick_keep`: never keep a joint entity over a non-joint one, else
prefer more tokens, then the longer display string, ties to the first
argument. -/
def pickKeep (a b : Rec) : Rec × Rec :=
  if a.isJoint ∧ ¬ b.isJoint then (b, a)
  else if b.isJoint ∧ ¬ a.isJoint then (a, b)
  else if a.tokens.length ≠ b.tokens.length then
    (if a.tokens.length ≥ b.tokens.length then (a, b) else (b, a))
  else (if a.name.length ≥ b.name.length then (a, b) else (b, a))

/-- Strategy 1 (exact normalized match), per normalized-name group: keep
the longest original string, merge the rest into it. -/
def pairsOfGroup1 (g : List Rec) : List (Rec × Rec) :=
  if g.length < 2 then []
  else
    match maxByNat (fun r => r.name.length) g with
    | none => []
    | some keep => g.filterMap (fun r => if r.id ≠ keep.id then some (keep, r) else none)

/-- Strategy 1 over all records. -/
def strategy1 (records : List Rec) : List (Rec × Rec) :=
  (groupByKey (fun r => r.normL) records).flatMap (fun kg => pairsOfGroup1 kg.2)

/-- The `{r["id"]: r for r in ...}` comprehension: ids in first-occurrence
order, each mapped to the last record carrying that id. -/
def uniqById (g : List Rec) : List Rec :=
  (firstDedup (g.map (fun r => r.id))).filterMap
    (fun i => (g.filter (fun r => decide (r.id = i))).getLast?)

/-- The `{r["id"]: r for r in group if not r["is_joint"]}` of strategies
2 and 2b. -/
def uniqNonJoint (g : List Rec) : List Rec :=
  uniqById (g.filter (fun r => ¬ r.isJoint))

/-- Strategies 2/2b share this body: within a token-set group, drop joint
entities, deduplicate by id, keep the maximum by `(token count, name
length)`. -/
def pairsOfGroup2 (g : List Rec) : List (Rec × Rec) :=
  if g.length < 2 then []
  else if (uniqNonJoint g).length < 2 then []
  else
    match maxByTokName (uniqNonJoint g) with
    | none => []
    | some keep =>
      (uniqNonJoint g).filterMap (fun r => if r.id ≠ keep.id then some (keep, r) else none)

/-- Strategy 2 (token-set match on reordered names). -/
def strategy2 (records : List Rec) : List (Rec × Rec) :=
  (groupByKey (fun r => r.tokens) records).flatMap (fun kg => pairsOfGroup2 kg.2)

/-- Strategy 2b (token-set match after alias resolution). -/
def strategy2b (records : List Rec) : List (Rec × Rec) :=
  (groupByKey (fun r => r.aliasTokens) records).flatMap (fun kg => pairsOfGroup2 kg.2)

/-- The ambiguity set: last names (of both the plain and the alias-resolved
normalizations, when they have at least two parts) borne by more than one
distinct token set. -/
def lastNamePairs (records : List Rec) : List (List Char × List (List Char)) :=
  records.flatMap (fun r =>
    (if 2 ≤ r.normL.length then
       match r.normL.getLast? with
       | some l => [(l, r.tokens)]
       | none => []
     else []) ++
    (if 2 ≤ r.aliasL.length then
       match r.aliasL.getLast? with
       | some l => [(l, r.aliasTokens)]
       | none => []
     else []))

/-- `ambiguous_lastnames`: last names shared by at least two distinct token
sets. -/
def ambiguousLastnames (records : List Rec) : List (List Char) :=
  (firstDedup ((lastNamePairs records).map (fun p => p.1))).filter
    (fun ln =>
      1 < (firstDedup (((lastNamePairs records).filter
            (fun p => decide (p.1 = ln))).map (fun p => p.2))).length)

/-- The inverted-index candidate set of strategy 3: indices of records whose
token set contains every token of `ts` — exactly the intersection of the
`token_index` entries over `ts`, enumerated in increasing index order. -/
def candidateIdx (records : List Rec) (ts : List (List Char)) : List Nat :=
  (records.enum.filter (fun p => ts.all (fun t => tokMem t p.2.tokens))).map (fun p => p.1)

/-- The per-candidate body of strategy 3: skip joint targets, require a
strict subset, and apply the single-token ambiguity/proper-noun guard (dead
under the caller's two-token minimum, kept as in the source). -/
def subsetPair (ambig : List (List Char)) (r other : Rec) : List (Rec × Rec) :=
  if other.isJoint then []
  else if tokStrictSubset r.tokens other.tokens then
    if r.tokens.length = 1 then
      match r.tokens with
      | [t] => if t ∈ ambig ∨ ¬ r.isProper then [] else [pickKeep other r]
      | _ => []
    else [pickKeep other r]
  else []

/-- Strategy 3 (subset match): propose merging `r` into any `other` whose
token set strictly contains `r`'s.  Records with fewer than two tokens are
skipped by the outer guard, which makes the inner single-token
ambiguity/proper-noun guard unreachable. -/
def strategy3 (ambig : List (List Char)) (records : List Rec) : List (Rec × Rec) :=
  records.enum.flatMap (fun p =>
    if p.2.tokens.length < 2 then []
    else if p.2.isJoint then []
    else
      (candidateIdx records p.2.tokens).flatMap (fun j =>
        if j = p.1 then []
        else
          match records.get? j with
          | none => []
          | some other => subsetPair ambig p.2 other))

/-- Candidate indices for strategy 3b, over alias token sets. -/
def candidateIdxAlias (records : List Rec) (ts : List (List Char)) : List Nat :=
  (records.enum.filter (fun p => ts.all (fun t => tokMem t p.2.aliasTokens))).map (fun p => p.1)

/-- The per-candidate body of strategy 3b (alias token sets); the inner
single-token guard is again dead code under the caller's length guard. -/
def subsetPairAlias (r other : Rec) : List (Rec × Rec) :=
  if other.isJoint then []
  else if tokStrictSubset r.aliasTokens other.aliasTokens then
    if r.aliasTokens.length = 1 then [] else [pickKeep other r]
  else []

/-- Strategy 3b (subset match with alias resolution). -/
def strategy3b (records : List Rec) : List (Rec × Rec) :=
  records.enum.flatMap (fun p =>
    if p.2.aliasTokens.length < 2 ∨ p.2.isJoint then []
    else
      (candidateIdxAlias records p.2.aliasTokens).flatMap (fun j =>
        if j = p.1 then []
        else
          match records.get? j with
          | none => []
          | some other => subsetPairAlias p.2 other))

/-- Blocking entries of strategy 4: for each proper multi-token record, the
sorted token list minus each position, paired with the record index. -/
def blockEntries (records : List Rec) : List (List (List Char) × Nat) :=
  records.enum.flatMap (fun p =>
    if p.2.tokens.length < 2 ∨ ¬ p.2.isProper then []
    else (List.range p.2.tokens.length).map (fun k => (p.2.tokens.eraseIdx k, p.1)))

/-- The blocking index: keys in first-occurrence order, each with the
(set of) indices sharing the key in increasing order. -/
def blockIndex (records : List Rec) : List (List (List Char) × List Nat) :=
  (firstDedup ((blockEntries records).map (fun e => e.1))).map
    (fun k => (k, firstDedup (((blockEntries records).filter
        (fun e => decide (e.1 = k))).map (fun e => e.2))))

/-- All index pairs `(i, j)` with `i` before `j` in the list — the nested
`ii < jj` loops of strategy 4. -/
def allPairs : List Nat → List (Nat × Nat)
  | [] => []
  | x :: xs => xs.map (fun y => (x, y)) ++ allPairs xs

/-- The per-pair body of strategy 4: proceed only when exactly one token
differs on each side, the edit distance of the differing tokens is at most
2, no middle-initial conflict exists, and the distance-2 guards (short
tokens; equal length at least 8) pass. -/
def fuzzyPair (a b : Rec) : List (Rec × Rec) :=
  if a.isJoint ∨ b.isJoint then []
  else if a.tokens = b.tokens then []
  else
    match a.tokens.filter (fun t => ¬ tokMem t b.tokens),
        b.tokens.filter (fun t => ¬ tokMem t a.tokens) with
    | [da], [db] =>
      if levenshtein da db > 2 then []
      else if middleInitialConflicts a.normL b.normL then []
      else if levenshtein da db = 2 ∧ (da.length ≤ 3 ∨ db.length ≤ 3) then []
      else if levenshtein da db = 2 ∧ 8 ≤ da.length ∧ 8 ≤ db.length ∧
          da.length = db.length then []
      else [pickKeep a b]
    | _, _ => []

/-- Strategy 4 (bounded OCR fuzzy match) over the blocking index. -/
def strategy4 (records : List Rec) : List (Rec × Rec) :=
  (blockIndex records).flatMap (fun kg =>
    if kg.2.length < 2 then []
    else
      (allPairs kg.2).flatMap (fun ij =>
        match records.get? ij.1, records.get? ij.2 with
        | some a, some b => fuzzyPair a b
        | _, _ => []))

/-- All raw proposals in emission order (strategy order of the source). -/
def rawProposals (records : List Rec) : List (Rec × Rec) :=
  strategy1 records ++ strategy2 records ++ strategy2b records ++
    strategy3 (ambiguousLastnames records) records ++ strategy3b records ++
    strategy4 records

/-- `_add_merge`'s `seen_pairs` filter: keep the first occurrence of each
id pair, in either orientation. -/
def dedupPairsAux (seen : List (String × String)) :
    List (String × String) → List (String × String)
  | [] => []
  | p :: ps =>
    if p ∈ seen ∨ (p.2, p.1) ∈ seen then dedupPairsAux seen ps
    else p :: dedupPairsAux (p :: seen) ps

/-- Orientation-deduplicated merge pairs. -/
def dedupPairs (l : List (String × String)) : List (String × String) :=
  dedupPairsAux [] l

/-- One row of the relationships table.  Fields exist for every column the
code may touch; the table-level flags below record which columns the
snapshot actually carries. -/
structure RelRow where
  source : String
  target : String
  sourceId : String
  targetId : String
  relType : String
  description : String
  weight : Int
  combinedDegree : Int
deriving DecidableEq

/-- The relationships table with its column-presence flags (`"source_id" in
relationships_df.columns` etc.). -/
structure RelTable where
  hasSourceId : Bool
  hasTargetId : Bool
  hasSource : Bool
  hasTarget : Bool
  hasWeight : Bool
  hasCombinedDegree : Bool
  rows : List RelRow
deriving DecidableEq

/-- The records of the person rows of an entity table. -/
def recordsOf (es : List Entity) : List Rec :=
  (es.filter (fun e => isPersonType e.typ)).map buildRec

/-- `_find_merge_candidates`: person records, five strategies,
orientation-deduplicated `(keep_id, merge_id)` pairs. -/
def findMergeCandidates (es : List Entity) (_rels : List RelRow) : List (String × String) :=
  let records := recordsOf es
  if records.length < 2 then []
  else dedupPairs ((rawProposals records).map (fun p => (p.1.id, p.2.id)))

/-- Association-list lookup with Python `dict` semantics (each key occurs at
most once; first match). -/
def lookupA (m : List (String × String)) (x : String) : Option String :=
  (m.find? (fun p => decide (p.1 = x))).map (fun p => p.2)

/-- `dict.get(x, x)`: lookup with the key itself as default. -/
def lookupD (m : List (String × String)) (x : String) : String :=
  (lookupA m x).getD x

/-- Python `d[k] = v`: update in place when the key exists (keeping its
position), else append. -/
def dictSet : List (String × String) → String → String → List (String × String)
  | [], k, v => [(k, v)]
  | (a, b) :: rest, k, v =>
    if a = k then (a, v) :: rest else (a, b) :: dictSet rest k v

/-- The `while ultimate_keep in merge_map` chain walk, fuelled.  Whenever the
Python loop terminates it visits pairwise-distinct keys, so fuel
`m.length + 1` reproduces it exactly. -/
def chase (m : List (String × String)) : Nat → String → String
  | 0, x => x
  | f + 1, x =>
    match lookupA m x with
    | none => x
    | some y => chase m f y

/-- Value re-pointing of the merge-map construction: an entry whose value
was the keep id or the merge id now points at the ultimate keep. -/
def repointVal (a b u v : String) : String :=
  if v = a ∨ v = b then u else v

/-- One iteration of the merge-map construction: chase the keep id to its
ultimate target, bind the merge id to it, and re-point every entry whose
value was the keep id or the merge id. -/
def mergeStep (m : List (String × String)) (p : String × String) : List (String × String) :=
  let u := chase m (m.length + 1) p.1
  (dictSet m p.2 u).map (fun kv => (kv.1, repointVal p.1 p.2 u kv.2))

/-- The transitive merge map of `_apply_merges` (merge id to final keep id). -/
def buildMergeMap (pairs : List (String × String)) : List (String × String) :=
  pairs.foldl mergeStep []

/-- Drop surrounding whitespace: Python `str.strip()`. -/
def trimChars (cs : List Char) : List Char :=
  ((cs.dropWhile (fun c => c.isWhitespace)).reverse.dropWhile
    (fun c => c.isWhitespace)).reverse

/-- Substring occurrence test: Python `needle in hay`. -/
def isSubstr (needle hay : List Char) : Bool :=
  (List.range (hay.length + 1)).any (fun i => needle.isPrefixOf (hay.drop i))

/-- One description absorption: append the merged description when it is
nonempty and not already contained, with `f"{keep} {merge}".strip()`. -/
def combineDesc (kd md : String) : String :=
  if md ≠ "" ∧ ¬ isSubstr md.data kd.data
  then String.mk (trimChars (kd.data ++ ' ' :: md.data))
  else kd

/-- The last index at which an id occurs — the value a Python dict
comprehension over `iterrows()` retains for a duplicated id. -/
def lastIdxOf (es : List Entity) (i : String) : Option Nat :=
  ((es.enum.filter (fun p => decide (p.2.id = i))).map (fun p => p.1)).getLast?

/-- The `id_to_name` lookup (last row wins, empty-string default). -/
def idToName (es : List Entity) (i : String) : String :=
  ((es.filter (fun e => decide (e.id = i))).getLast?).elim "" (fun e => e.title)

/-- The `merge_name_map`: old display name to new display name, built over
the merge map in order, skipping empty names. -/
def buildNameMap (es : List Entity) (mm : List (String × String)) :
    List (String × String) :=
  mm.foldl (fun acc kv =>
    let old := idToName es kv.1
    let nw := idToName es kv.2
    if old ≠ "" ∧ nw ≠ "" then dictSet acc old nw else acc) []

/-- One entry of the description-combination loop: when both ids are
present, append the merged row's current description to the keep row's
current description (indices resolved against the pre-mutation table, reads
against the current one, as in the source). -/
def descStep (esOrig : List Entity) (cur : List Entity) (kv : String × String) :
    List Entity :=
  match lastIdxOf esOrig kv.1, lastIdxOf esOrig kv.2 with
  | some mIdx, some kIdx =>
    match cur.get? kIdx, cur.get? mIdx with
    | some keepE, some mergeE =>
      cur.set kIdx
        { keepE with description := combineDesc keepE.description mergeE.description }
    | _, _ => cur
  | _, _ => cur

/-- Fold the description-combination loop over the merge map. -/
def applyDescMerges (esOrig : List Entity) (mm : List (String × String)) :
    List Entity :=
  mm.foldl (descStep esOrig) esOrig

/-- The frame relation of the description fold: same length, all fields but
the description pointwise unchanged, and each description reachable from
the original by `combineDesc` steps. -/
def DescFrame (es cur : List Entity) : Prop :=
  cur.length = es.length ∧
  ∀ i x e, cur.get? i = some x → es.get? i = some e →
    x.id = e.id ∧ x.title = e.title ∧ x.typ = e.typ ∧ x.degree = e.degree ∧
    ∃ ms : List String, x.description = ms.foldl combineDesc e.description

/-- Row `i` is the keep row of some merge-map entry: the row the
description loop writes to (`keep_idx = id_to_idx[keep_id]`). -/
def IsKeepIdx (es : List Entity) (mm : List (String × String)) (i : Nat) : Prop :=
  ∃ kv ∈ mm, lastIdxOf es kv.2 = some i

/-- Redirect one relationship row through the merge map (ids) and the name
map (display names), guarded by column presence. -/
def redirectRow (rt : RelTable) (mm nameMap : List (String × String))
    (r : RelRow) : RelRow :=
  let r1 := if rt.hasSourceId then { r with sourceId := lookupD mm r.sourceId } else r
  let r2 := if rt.hasTargetId then { r1 with targetId := lookupD mm r1.targetId } else r1
  let r3 := if rt.hasSource then { r2 with source := lookupD nameMap r2.source } else r2
  if rt.hasTarget then { r3 with target := lookupD nameMap r3.target } else r3

/-- Self-loop removal: by ids when both id columns exist, else by names
when both name columns exist (the `elif` of the source). -/
def dropSelfLoops (rt : RelTable) (rows : List RelRow) : List RelRow :=
  if rt.hasSourceId ∧ rt.hasTargetId then
    rows.filter (fun r => decide (r.sourceId ≠ r.targetId))
  else if rt.hasSource ∧ rt.hasTarget then
    rows.filter (fun r => decide (r.source ≠ r.target))
  else rows

/-- The weight used for the descending sort before deduplication:
`combined_degree` when present, else `weight`. -/
def weightOf (rt : RelTable) (r : RelRow) : Int :=
  if rt.hasCombinedDegree then r.combinedDegree else r.weight

/-- Insert a row into a weight-descending list, before the first row of
equal or smaller weight (helper for `sortRowsDesc`). -/
def insRowDesc (rt : RelTable) (x : RelRow) : List RelRow → List RelRow
  | [] => [x]
  | y :: ys =>
    if weightOf rt y > weightOf rt x then y :: insRowDesc rt x ys
    else x :: y :: ys

/-- Stable descending sort of rows by weight (a valid realization of
`sort_values(weight_col, ascending=False)`, whose tie order pandas leaves
unspecified). -/
def sortRowsDesc (rt : RelTable) (rows : List RelRow) : List RelRow :=
  rows.foldr (insRowDesc rt) []

/-- The directed edge key `(source, target)`. -/
def edgeKey (r : RelRow) : String × String :=
  (r.source, r.target)

/-- `drop_duplicates(keep="first")` on the edge key. -/
def dedupByKeyAux (seen : List (String × String)) : List RelRow → List RelRow
  | [] => []
  | r :: rs =>
    if edgeKey r ∈ seen then dedupByKeyAux seen rs
    else r :: dedupByKeyAux (edgeKey r :: seen) rs

/-- Relationship deduplication: only when both name columns exist; sort by
weight descending when a weight column exists, then keep the first row per
directed `(source, target)` key. -/
def dedupRels (rt : RelTable) (rows : List RelRow) : List RelRow :=
  if rt.hasSource ∧ rt.hasTarget then
    dedupByKeyAux []
      (if rt.hasCombinedDegree ∨ rt.hasWeight then sortRowsDesc rt rows else rows)
  else rows

/-- The relationship rows after redirection and self-loop removal, before
deduplication. -/
def redirectedRows (es : List Entity) (rt : RelTable)
    (pairs : List (String × String)) : List RelRow :=
  dropSelfLoops rt
    (rt.rows.map (redirectRow rt (buildMergeMap pairs)
      (buildNameMap es (buildMergeMap pairs))))

/-- The surviving entity rows: descriptions combined, merged ids removed. -/
def survivingEntities (es : List Entity) (pairs : List (String × String)) :
    List Entity :=
  (applyDescMerges es (buildMergeMap pairs)).filter
    (fun e => decide (e.id ∉ (buildMergeMap pairs).map (fun kv => kv.1)))

/-- `_apply_merges`: combine descriptions, remove merged entity rows,
redirect relationship ids and names, drop self-loops, deduplicate edges. -/
def applyMerges (es : List Entity) (rt : RelTable)
    (pairs : List (String × String)) : List Entity × RelTable :=
  if pairs = [] then (es, rt)
  else
    (survivingEntities es pairs,
      { rt with rows := dedupRels rt (redirectedRows es rt pairs) })

/-- The summary dictionary returned by `resolve_entities`. -/
structure Summary where
  status : String
  entitiesBefore : Nat
  entitiesAfter : Nat
  relationshipsBefore : Nat
  relationshipsAfter : Nat
  merges : Nat
deriving DecidableEq

/-- The in-memory core of `resolve_entities` once both snapshots loaded:
find candidates, short-circuit when there are none, else apply the merges;
return the rewritten tables together with the summary. -/
def resolveCore (es : List Entity) (rt : RelTable) :
    List Entity × RelTable × Summary :=
  let pairs := findMergeCandidates es rt.rows
  if pairs = [] then
    (es, rt, ⟨"completed", es.length, es.length, rt.rows.length, rt.rows.length, 0⟩)
  else
    let out := applyMerges es rt pairs
    (out.1, out.2,
      ⟨"completed", es.length, out.1.length, rt.rows.length, out.2.rows.length,
        pairs.length⟩)

/-! ### The calling pipeline (`SyncService.sync_and_index`)

The `try/except` around the `resolve_entities` call is modelled on the
outcome of the call: an exception becomes `Except.error` with the message
`str(e)`. -/

/-- The `entity_resolution` entry recorded on the index result. -/
inductive EntityResolutionRecord where
  | result (summary : Summary)
  | failed (error : String)
deriving DecidableEq

/-- The `try/except` body: a normal return is attached as is; any raised
exception is caught and recorded as `{"status": "failed", "error": str(e)}`. -/
def entityResolutionStep (outcome : Except String Summary) : EntityResolutionRecord :=
  match outcome with
  | Except.ok s => EntityResolutionRecord.result s
  | Except.error e => EntityResolutionRecord.failed e

/-- The remainder of the indexing step after the resolution call: the
resolution record is attached to the index result and the index version is
still bumped — the function is total, so no exception escapes. -/
def postIndexStep (indexVersion : Nat) (outcome : Except String Summary) :
    Nat × EntityResolutionRecord :=
  (indexVersion + 1, entityResolutionStep outcome)

/-! ### Concrete snapshots used by the scenario claims -/

/-- A person entity row with empty description. -/
def personE (i n : String) : Entity :=
  ⟨i, n, "person", "", none⟩

/-- A person entity row with a description. -/
def personED (i n d : String) : Entity :=
  ⟨i, n, "person", d, none⟩

/-- A relationship row carrying names, ids and a weight. -/
def relR (s t si ti : String) (w : Int) : RelRow :=
  ⟨s, t, si, ti, "", "", w, 0⟩

/-- Subset-merge scenario table (claim C1). -/
def blakeEntities : List Entity :=
  [personED "1" "Blake T McCarn" "desc one", personED "2" "Blake" "desc two"]

/-- A relationship referencing the would-be merged id 2. -/
def blakeRels : RelTable :=
  ⟨true, true, true, true, true, false, [relR "Blake" "Blake T McCarn" "2" "1" 1]⟩

/-- Joint-entity table: a joint name and a non-joint name sharing one
normalized form (claim C2). -/
def jointEntities : List Entity :=
  [personE "1" "Blake & Chelsea Mccarn", personE "2" "BLAKE CHELSEA MCCARN"]

/-- Distance-1 short-token fuzzy table (claim C5). -/
def shortTokEntities : List Entity :=
  [personE "1" "JOHN ABC SMITH", personE "2" "JOHN ABD SMITH"]

/-- OCR fuzzy scenario, merging half (claim C8). -/
def carlsenEntities : List Entity :=
  [personED "1" "Jonathan Carlsen" "a", personED "2" "Jonathan Carlson" "b"]

/-- OCR fuzzy scenario, non-merging half (claim C8). -/
def grandEntities : List Entity :=
  [personE "1" "John Grandfather", personE "2" "John Grandmother"]

/-- Table triggering one merge, used by the self-loop and frame claims: two
rows with the same normalized name. -/
def smithEntities : List Entity :=
  [personE "1" "John Smith", personE "2" "JOHN SMITH"]

/-- Same table with a leading-whitespace keep description (claim C10). -/
def smithEntitiesD : List Entity :=
  [personED "1" "John Smith" " A", personED "2" "JOHN SMITH" "B"]

/-- A relationship table carrying both id and name columns whose single row
has equal names but distinct, unmerged ids (claim C7). -/
def bobRels : RelTable :=
  ⟨true, true, true, true, true, false, [relR "Bob" "Bob" "7" "8" 1]⟩

/-- An empty relationship table with all columns present. -/
def noRels : RelTable :=
  ⟨true, true, true, true, true, false, []⟩

/-- A name-column table with duplicate directed edges of different weights
and a reversed pair (claim C6). -/
def dupEdgeRels : RelTable :=
  ⟨false, false, true, true, true, false,
    [relR "A" "B" "" "" 1, relR "A" "B" "" "" 5, relR "B" "A" "" "" 2]⟩

/-- One-hop stability of an association map: every stored value looks up to
itself (a non-key looks up to itself by default). -/
def OneHop (m : List (String × String)) : Prop :=
  ∀ kv : String × String, kv ∈ m → lookupD m kv.2 = kv.2

/-- The ids removed by one resolution pass over a record list: the keys of
the merge map built from the orientation-deduplicated proposals. -/
def mergeKeysOf (rs : List Rec) : List String :=
  (buildMergeMap (dedupPairs ((rawProposals rs).map
    (fun p => (p.1.id, p.2.id))))).map (fun kv => kv.1)

/-- The person records that survive one resolution pass: those whose id is
not a key of the merge map. -/
def survRecs (rs : List Rec) : List Rec :=
  rs.filter (fun r => decide (r.id ∉ mergeKeysOf rs))

/-- The bucket of one blocking key: the deduplicated indices of the entries
carrying that key, as enumerated by `blockIndex`. -/
def bucketOf (records : List Rec) (k : List (List Char)) : List Nat :=
  firstDedup (((blockEntries records).filter
    (fun e => decide (e.1 = k))).map (fun e => e.2))

/-! ## Theorems -/

/-- C1: the spec's subset-merge scenario expects `Blake` (id 2) to be merged
into `Blake T McCarn` (id 1).  The scenario's preconditions hold — a strict,
unambiguous token subset whose name passes the proper-noun check — yet the
code proposes nothing: strategy 3's outer guard `len(tokens) < 2` skips every
single-token source, leaving its own inner single-token ambiguity guard
unreachable, so both rows and the relationship survive unchanged. -/
theorem c1_blake_subset_scenario_not_merged :
    tokStrictSubset (tokenSetOf (normWordsOf "Blake"))
        (tokenSetOf (normWordsOf "Blake T McCarn")) = true ∧
    isProperNoun "Blake" = true ∧
    findMergeCandidates blakeEntities blakeRels.rows = [] ∧
    resolveCore blakeEntities blakeRels =
      (blakeEntities, blakeRels, ⟨"completed", 2, 2, 1, 1, 0⟩) := by
  decide

/-- C2 (counterexample): the exact-normalized strategy does not exclude
joint entities.  `Blake & Chelsea Mccarn` is joint and normalizes to the
same string as the non-joint `BLAKE CHELSEA MCCARN`; the code proposes the
merge with the *joint* entity (id 1, the longer original string) as the
keep side and the non-joint one as the absorbed side. -/
theorem c2_joint_keep_counterexample :
    jointEntities =
      [personE "1" "Blake & Chelsea Mccarn", personE "2" "BLAKE CHELSEA MCCARN"] ∧
    isJointEntity "Blake & Chelsea Mccarn" = true ∧
    isJointEntity "BLAKE CHELSEA MCCARN" = false ∧
    findMergeCandidates jointEntities [] = [("1", "2")] := by
  decide

/-- C5 (counterexample): in the bounded fuzzy strategy the short-token
rejection applies only at distance 2.  `JOHN ABC SMITH` and `JOHN ABD
SMITH` differ in the tokens `ABC`/`ABD` of length 3 at distance 1, and the
merge is proposed. -/
theorem c5_short_token_distance1_counterexample :
    findMergeCandidates shortTokEntities [] = [("1", "2")] ∧
    (tokenSetOf (normWordsOf "JOHN ABC SMITH")).filter
        (fun t => ¬ tokMem t (tokenSetOf (normWordsOf "JOHN ABD SMITH"))) = [toC "ABC"] ∧
    (tokenSetOf (normWordsOf "JOHN ABD SMITH")).filter
        (fun t => ¬ tokMem t (tokenSetOf (normWordsOf "JOHN ABC SMITH"))) = [toC "ABD"] ∧
    levenshtein (toC "ABC") (toC "ABD") = 1 ∧
    (toC "ABC").length ≤ 3 ∧ (toC "ABD").length ≤ 3 := by
  decide

/-- C8: the OCR fuzzy scenario.  `Jonathan Carlsen`/`Jonathan Carlson`
(differing tokens at distance 1, length 7 ≥ … both names proper) merge into
a single record, while `John Grandfather`/`John Grandmother` (distance 2,
equal length 11 ≥ 8) are rejected and both survive. -/
theorem c8_ocr_fuzzy_scenario :
    levenshtein (toC "CARLSEN") (toC "CARLSON") = 1 ∧
    findMergeCandidates carlsenEntities noRels.rows = [("1", "2")] ∧
    ((resolveCore carlsenEntities noRels).1.map (fun e => e.title)) =
      ["Jonathan Carlsen"] ∧
    levenshtein (toC "GRANDFATHER") (toC "GRANDMOTHER") = 2 ∧
    findMergeCandidates grandEntities noRels.rows = [] ∧
    (resolveCore grandEntities noRels).1 = grandEntities := by
  decide

/-- C7 (counterexample): when the relationship table carries both the id
columns and the name columns, only the id-based self-loop filter runs; a
row whose names are equal but whose ids are distinct and unmerged survives
a resolution that performed a merge. -/
theorem c7_selfloop_name_counterexample :
    bobRels.hasSourceId = true ∧ bobRels.hasTargetId = true ∧
    bobRels.hasSource = true ∧ bobRels.hasTarget = true ∧
    (resolveCore smithEntities bobRels).2.2.merges = 1 ∧
    ((resolveCore smithEntities bobRels).2.1.rows.map
        (fun r => (r.source, r.target))) = [("Bob", "Bob")] := by
  decide

/-- C10 (counterexample): a keep description is not always extended by pure
appending — the combination `f"{keep} {merge}".strip()` also strips the
keep side's surrounding whitespace.  With keep description `" A"` the
surviving description is `"A B"`, of which the original is not a prefix. -/
theorem c10_description_strip_counterexample :
    (smithEntitiesD.map (fun e => e.description)) = [" A", "B"] ∧
    ((resolveCore smithEntitiesD bobRels).1.map (fun e => e.description)) = ["A B"] ∧
    (toC " A").isPrefixOf (toC "A B") = false := by
  decide

/-- C4 (counterexample): for the pair list `[("A","B"), ("B","A")]` the
built merge map is `[("B","A"), ("A","A")]` — the id `"A"` appears both as
a value (a final canonical id) and as a key (a merged id), so the map is
not key/value-disjoint as claimed. -/
theorem c4_value_also_key_counterexample :
    buildMergeMap [("A", "B"), ("B", "A")] = [("B", "A"), ("A", "A")] ∧
    ("A" ∈ (buildMergeMap [("A", "B"), ("B", "A")]).map (fun kv => kv.2)) ∧
    ("A" ∈ (buildMergeMap [("A", "B"), ("B", "A")]).map (fun kv => kv.1)) := by
  decide

/-- C9: whatever the resolution call does, the indexing step never
propagates its exception: a raised error `e` is caught and recorded as a
failed entity-resolution entry carrying the message, a normal summary is
attached as is, and in both cases the step completes (the index version is
still advanced). -/
theorem c9_resolution_failure_nonfatal (v : Nat) (e : String) (s : Summary) :
    postIndexStep v (Except.error e) = (v + 1, EntityResolutionRecord.failed e) ∧
    postIndexStep v (Except.ok s) = (v + 1, EntityResolutionRecord.result s) := by
  exact ⟨rfl, rfl⟩

/-! ### Association-list lemmas for the merge map -/

theorem lookupA_nil (x : String) : lookupA [] x = none := rfl

theorem lookupA_cons (a b x : String) (m : List (String × String)) :
    lookupA ((a, b) :: m) x = if a = x then some b else lookupA m x := by
  by_cases h : a = x <;> simp [lookupA, List.find?, h]

theorem lookupA_mem {m : List (String × String)} {x y : String}
    (h : lookupA m x = some y) : (x, y) ∈ m := by
  induction m with
  | nil => simp [lookupA] at h
  | cons kv m ih =>
    rcases kv with ⟨a, b⟩
    rw [lookupA_cons] at h
    by_cases hax : a = x
    · simp [hax] at h
      simp [hax, h]
    · simp [hax] at h
      exact List.mem_cons_of_mem _ (ih h)

theorem lookupA_eq_none {m : List (String × String)} {x : String} :
    lookupA m x = none ↔ x ∉ m.map (fun kv => kv.1) := by
  induction m with
  | nil => simp [lookupA]
  | cons kv m ih =>
    rcases kv with ⟨a, b⟩
    rw [lookupA_cons]
    by_cases hax : a = x <;> simp [hax, ih, fun h => Ne.symm h]

theorem lookupA_isSome_of_mem {m : List (String × String)} {x : String}
    (h : x ∈ m.map (fun kv => kv.1)) : ∃ y, lookupA m x = some y := by
  rcases hn : lookupA m x with _ | y
  · exact absurd (lookupA_eq_none.mp hn) (by simpa using h)
  · exact ⟨y, rfl⟩

theorem mem_dictSet {m : List (String × String)} {k v : String} {kv : String × String}
    (h : kv ∈ dictSet m k v) : kv = (k, v) ∨ kv ∈ m := by
  induction m with
  | nil => simpa [dictSet] using h
  | cons e m ih =>
    rcases e with ⟨a, b⟩
    simp only [dictSet] at h
    by_cases hak : a = k
    · rw [if_pos hak] at h
      rcases List.mem_cons.mp h with h1 | h1
      · left; rw [h1, hak]
      · right; exact List.mem_cons_of_mem _ h1
    · rw [if_neg hak] at h
      rcases List.mem_cons.mp h with h1 | h1
      · right; rw [h1]; exact List.mem_cons_self _ _
      · rcases ih h1 with h' | h'
        · exact Or.inl h'
        · exact Or.inr (List.mem_cons_of_mem _ h')

theorem keys_dictSet (m : List (String × String)) (k v x : String) :
    x ∈ (dictSet m k v).map (fun kv => kv.1) ↔
      x ∈ m.map (fun kv => kv.1) ∨ x = k := by
  induction m with
  | nil => simp [dictSet, eq_comm]
  | cons e m ih =>
    rcases e with ⟨a, b⟩
    simp only [dictSet]
    by_cases hak : a = k
    · rw [if_pos hak]
      subst hak
      simp only [List.map_cons, List.mem_cons]
      tauto
    · rw [if_neg hak]
      simp only [List.map_cons, List.mem_cons, ih]
      tauto

theorem lookupA_dictSet_self (m : List (String × String)) (k v : String) :
    lookupA (dictSet m k v) k = some v := by
  induction m with
  | nil => simp [dictSet, lookupA_cons]
  | cons e m ih =>
    rcases e with ⟨a, b⟩
    simp only [dictSet]
    by_cases hak : a = k
    · simp [hak, lookupA_cons]
    · simp [lookupA_cons, hak, ih]

theorem lookupA_dictSet_ne (m : List (String × String)) (k v x : String)
    (hx : x ≠ k) : lookupA (dictSet m k v) x = lookupA m x := by
  induction m with
  | nil =>
    have hkx : k ≠ x := fun h => hx h.symm
    simp [dictSet, lookupA_cons, lookupA_nil, hkx]
  | cons e m ih =>
    rcases e with ⟨a, b⟩
    simp only [dictSet]
    by_cases hak : a = k
    · rw [if_pos hak]
      subst hak
      have hax : a ≠ x := fun h => hx h.symm
      simp [lookupA_cons, hax]
    · rw [if_neg hak]
      by_cases hax : a = x <;> simp [lookupA_cons, hax, ih]

theorem lookupA_mapVal (m : List (String × String)) (h : String → String) (x : String) :
    lookupA (m.map (fun kv => (kv.1, h kv.2))) x = (lookupA m x).map h := by
  induction m with
  | nil => simp [lookupA]
  | cons e m ih =>
    rcases e with ⟨a, b⟩
    by_cases hax : a = x <;> simp [lookupA_cons, hax, ih]

theorem lookupD_eq_self_of_not_key {m : List (String × String)} {x : String}
    (h : x ∉ m.map (fun kv => kv.1)) : lookupD m x = x := by
  simp [lookupD, lookupA_eq_none.mpr h]

theorem lookupA_of_lookupD_key {m : List (String × String)} {x : String}
    (hk : x ∈ m.map (fun kv => kv.1)) (h : lookupD m x = x) :
    lookupA m x = some x := by
  rcases lookupA_isSome_of_mem hk with ⟨y, hy⟩
  simp [lookupD, hy] at h
  simp [hy, h]

theorem chase_stable {m : List (String × String)} {y : String}
    (h : lookupA m y = some y) : ∀ fuel, chase m fuel y = y := by
  intro fuel
  induction fuel with
  | zero => rfl
  | succ f ih => simp [chase, h, ih]

/-- Under one-hop stability, the chase result is itself one-hop stable. -/
theorem chase_result_stable {m : List (String × String)} (hI : OneHop m)
    (x : String) (fuel : Nat) (hf : 1 ≤ fuel) :
    lookupD m (chase m fuel x) = chase m fuel x := by
  rcases fuel with _ | f
  · omega
  · rcases hx : lookupA m x with _ | y
    · simp [chase, hx, lookupD]
    · have hy : lookupD m y = y := hI (x, y) (lookupA_mem hx)
      have hcy : chase m f y = y := by
        rcases hky : lookupA m y with _ | z
        · rcases f with _ | f2
          · rfl
          · simp [chase, hky]
        · have hz : z = y := by simpa [lookupD, hky] using hy
          subst hz
          exact chase_stable hky f
      simp [chase, hx, hcy, hy]

/-- Auxiliary: updating one key and re-pointing values preserves one-hop
stability, provided the new value is itself stable in the old map. -/
theorem updateRepoint_oneHop {m : List (String × String)} (hI : OneHop m)
    (p1 p2 u : String) (hustab : lookupD m u = u) :
    OneHop ((dictSet m p2 u).map (fun kv => (kv.1, repointVal p1 p2 u kv.2))) := by
  intro kv hkv
  rcases List.mem_map.mp hkv with ⟨⟨a, b⟩, hab, hab2⟩
  have hkv2 : kv.2 = repointVal p1 p2 u b := by rw [← hab2]
  have hkeysN : ∀ x : String,
      x ∈ ((dictSet m p2 u).map (fun kv => (kv.1, repointVal p1 p2 u kv.2))).map
          (fun kv => kv.1) ↔ x ∈ m.map (fun kv => kv.1) ∨ x = p2 := by
    intro x
    rw [List.map_map]
    have hcomp : ((fun kv : String × String => kv.1) ∘
        fun kv : String × String => (kv.1, repointVal p1 p2 u kv.2)) =
        (fun kv : String × String => kv.1) := rfl
    rw [hcomp, keys_dictSet]
  have hlookN : ∀ x : String,
      lookupA ((dictSet m p2 u).map (fun kv => (kv.1, repointVal p1 p2 u kv.2))) x =
        (lookupA (dictSet m p2 u) x).map (repointVal p1 p2 u) :=
    lookupA_mapVal _ _
  have hru : repointVal p1 p2 u u = u := by
    by_cases hc : u = p1 ∨ u = p2 <;> simp [repointVal, hc]
  by_cases hvu : kv.2 = u
  · rw [hvu]
    by_cases hup : u = p2
    · have h1 : lookupA (dictSet m p2 u) u = some u := by
        nth_rewrite 2 [hup]
        exact lookupA_dictSet_self m p2 u
      simp [lookupD, hlookN, h1, hru]
    · by_cases hku : u ∈ m.map (fun kv => kv.1)
      · have h0 : lookupA m u = some u := lookupA_of_lookupD_key hku hustab
        have h1 : lookupA (dictSet m p2 u) u = some u := by
          rw [lookupA_dictSet_ne m p2 u u hup]; exact h0
        simp [lookupD, hlookN, h1, hru]
      · have h1 : u ∉ ((dictSet m p2 u).map
            (fun kv => (kv.1, repointVal p1 p2 u kv.2))).map (fun kv => kv.1) := by
          rw [hkeysN]; push_neg; exact ⟨hku, hup⟩
        exact lookupD_eq_self_of_not_key h1
  · have hbno : ¬ (b = p1 ∨ b = p2) := by
      intro hc
      exact hvu (by rw [hkv2]; simp [repointVal, hc])
    have hkvb : kv.2 = b := by
      rw [hkv2]; simp [repointVal, hbno]
    rcases mem_dictSet hab with habs | habs
    · exact absurd (by rw [hkvb]; exact congrArg Prod.snd habs) hvu
    · have hIb : lookupD m b = b := hI (a, b) habs
      have hbp2 : b ≠ p2 := fun hc => hbno (Or.inr hc)
      rw [hkvb]
      by_cases hkb : b ∈ m.map (fun kv => kv.1)
      · have h0 : lookupA m b = some b := lookupA_of_lookupD_key hkb hIb
        have h1 : lookupA (dictSet m p2 u) b = some b := by
          rw [lookupA_dictSet_ne m p2 u b hbp2]; exact h0
        have h2 : repointVal p1 p2 u b = b := by simp [repointVal, hbno]
        simp [lookupD, hlookN, h1, h2]
      · have h1 : b ∉ ((dictSet m p2 u).map
            (fun kv => (kv.1, repointVal p1 p2 u kv.2))).map (fun kv => kv.1) := by
          rw [hkeysN]; push_neg; exact ⟨hkb, hbp2⟩
        exact lookupD_eq_self_of_not_key h1

/-- `mergeStep` preserves one-hop stability. -/
theorem mergeStep_oneHop {m : List (String × String)} (hI : OneHop m)
    (p : String × String) : OneHop (mergeStep m p) := by
  have hustab : lookupD m (chase m (m.length + 1) p.1) = chase m (m.length + 1) p.1 :=
    chase_result_stable hI p.1 _ (by omega)
  have := updateRepoint_oneHop hI p.1 p.2 (chase m (m.length + 1) p.1) hustab
  simpa [mergeStep] using this

/-- The built merge map is one-hop stable. -/
theorem buildMergeMap_oneHop (pairs : List (String × String)) :
    OneHop (buildMergeMap pairs) := by
  have hgen : ∀ (ps : List (String × String)) (m : List (String × String)),
      OneHop m → OneHop (ps.foldl mergeStep m) := by
    intro ps
    induction ps with
    | nil => exact fun m hm => hm
    | cons p ps ih => exact fun m hm => ih _ (mergeStep_oneHop hm p)
  exact hgen pairs [] (fun kv hkv => absurd hkv (List.not_mem_nil kv))

/-- Keys of one `mergeStep`: the old keys plus the merged id. -/
theorem keys_mergeStep (m : List (String × String)) (p : String × String) (x : String) :
    x ∈ (mergeStep m p).map (fun kv => kv.1) ↔
      x ∈ m.map (fun kv => kv.1) ∨ x = p.2 := by
  simp only [mergeStep]
  rw [List.map_map]
  have hcomp : ((fun kv : String × String => kv.1) ∘
      fun kv : String × String =>
        (kv.1, repointVal p.1 p.2 (chase m (m.length + 1) p.1) kv.2)) =
      (fun kv : String × String => kv.1) := rfl
  rw [hcomp, keys_dictSet]

/-- Every proposed pair's merge id ends up a key of the merge map (hence its
entity row is removed). -/
theorem mem_keys_buildMergeMap {pairs : List (String × String)} {p : String × String}
    (hp : p ∈ pairs) :
    p.2 ∈ (buildMergeMap pairs).map (fun kv => kv.1) := by
  have hgen : ∀ (ps : List (String × String)) (m : List (String × String)),
      (p ∈ ps ∨ p.2 ∈ m.map (fun kv => kv.1)) →
      p.2 ∈ (ps.foldl mergeStep m).map (fun kv => kv.1) := by
    intro ps
    induction ps with
    | nil =>
      intro m hm
      rcases hm with h | h
      · exact absurd h (List.not_mem_nil p)
      · exact h
    | cons q ps ih =>
      intro m hm
      apply ih
      rcases hm with h | h
      · rcases List.mem_cons.mp h with h1 | h1
        · right; rw [keys_mergeStep]; right; rw [h1]
        · left; exact h1
      · right; rw [keys_mergeStep]; left; exact h
  exact hgen pairs [] (Or.inl hp)

/-- C4 (amended): for every list of proposed pairs, every value of the built
merge map is one-hop stable — looking the value up in the map returns the
value itself, so each originally-proposed merge id resolves to its final
canonical id in a single application of the map.  (The original claim that a
value never reappears as a key fails: a value can be stored under its own
key, as in the counterexample.) -/
theorem c4_merge_map_one_hop (pairs : List (String × String))
    (kv : String × String) (h : kv ∈ buildMergeMap pairs) :
    lookupD (buildMergeMap pairs) kv.2 = kv.2 :=
  buildMergeMap_oneHop pairs kv h

/-- Witness for the amended C4 theorem at a concrete pair list. -/
theorem c4_merge_map_one_hop_witness :
    ("A", "A") ∈ buildMergeMap [("A", "B"), ("B", "A")] ∧
      lookupD (buildMergeMap [("A", "B"), ("B", "A")]) "A" = "A" :=
  ⟨by decide, c4_merge_map_one_hop [("A", "B"), ("B", "A")] ("A", "A") (by decide)⟩

/-! ### Membership lemmas for the candidate strategies -/

theorem mem_firstDedupAux {α : Type} [DecidableEq α] (l : List α) :
    ∀ (seen : List α) (x : α), x ∈ firstDedupAux seen l ↔ x ∈ l ∧ x ∉ seen := by
  induction l with
  | nil => intro seen x; simp [firstDedupAux]
  | cons y ys ih =>
    intro seen x
    simp only [firstDedupAux]
    by_cases hy : y ∈ seen
    · rw [if_pos hy, ih]
      constructor
      · rintro ⟨h1, h2⟩
        exact ⟨List.mem_cons_of_mem _ h1, h2⟩
      · rintro ⟨h1, h2⟩
        rcases List.mem_cons.mp h1 with h3 | h3
        · exact absurd (h3 ▸ hy) h2
        · exact ⟨h3, h2⟩
    · rw [if_neg hy]
      by_cases hxy : x = y
      · subst hxy
        constructor
        · intro _; exact ⟨List.mem_cons_self _ _, hy⟩
        · intro _; exact List.mem_cons_self _ _
      · constructor
        · intro h1
          rcases List.mem_cons.mp h1 with h3 | h3
          · exact absurd h3 hxy
          · rw [ih] at h3
            refine ⟨List.mem_cons_of_mem _ h3.1, ?_⟩
            intro hx
            exact h3.2 (List.mem_cons_of_mem _ hx)
        · rintro ⟨h1, h2⟩
          rcases List.mem_cons.mp h1 with h3 | h3
          · exact absurd h3 hxy
          · apply List.mem_cons_of_mem
            rw [ih]
            refine ⟨h3, ?_⟩
            intro hx
            rcases List.mem_cons.mp hx with h4 | h4
            · exact hxy h4
            · exact h2 h4

theorem mem_firstDedup {α : Type} [DecidableEq α] {l : List α} {x : α} :
    x ∈ firstDedup l ↔ x ∈ l := by
  rw [firstDedup, mem_firstDedupAux]
  simp

theorem pickKeep_cases (a b : Rec) :
    pickKeep a b = (a, b) ∨ pickKeep a b = (b, a) := by
  unfold pickKeep
  split_ifs <;> simp

theorem foldl_choice_mem {f : Rec → Rec → Rec}
    (hf : ∀ a r, f a r = a ∨ f a r = r) :
    ∀ (l : List Rec) (a : Rec), l.foldl f a = a ∨ l.foldl f a ∈ l := by
  intro l
  induction l with
  | nil => intro a; left; rfl
  | cons x xs ih =>
    intro a
    rcases ih (f a x) with h | h
    · rcases hf a x with h2 | h2
      · left; rw [List.foldl_cons, h, h2]
      · right; rw [List.foldl_cons, h, h2]; exact List.mem_cons_self _ _
    · right; exact List.mem_cons_of_mem _ h

theorem maxByNat_mem {f : Rec → Nat} {l : List Rec} {k : Rec}
    (h : maxByNat f l = some k) : k ∈ l := by
  rcases l with _ | ⟨x, xs⟩
  · simp [maxByNat] at h
  · simp only [maxByNat, Option.some.injEq] at h
    have hmem := @foldl_choice_mem
      (fun acc r => if f r > f acc then r else acc)
      (fun a r => by by_cases hc : f r > f a <;> simp [hc]) xs x
    rw [h] at hmem
    rcases hmem with h2 | h2
    · rw [← h2]; exact List.mem_cons_self _ _
    · exact List.mem_cons_of_mem _ h2

theorem maxByTokName_mem {l : List Rec} {k : Rec}
    (h : maxByTokName l = some k) : k ∈ l := by
  rcases l with _ | ⟨x, xs⟩
  · simp [maxByTokName] at h
  · simp only [maxByTokName, Option.some.injEq] at h
    have hmem := @foldl_choice_mem
      (fun acc r => if lexGt (tokNameKey r) (tokNameKey acc) then r else acc)
      (fun a r => by by_cases hc : lexGt (tokNameKey r) (tokNameKey a) = true <;> simp [hc]) xs x
    rw [h] at hmem
    rcases hmem with h2 | h2
    · rw [← h2]; exact List.mem_cons_self _ _
    · exact List.mem_cons_of_mem _ h2

theorem mem_of_getLast? {α : Type} {l : List α} {a : α}
    (h : l.getLast? = some a) : a ∈ l := by
  rcases List.getLast?_eq_some_iff.mp h with ⟨ys, hys⟩
  rw [hys]
  simp

theorem uniqById_subset {g : List Rec} {x : Rec} (h : x ∈ uniqById g) : x ∈ g := by
  rcases List.mem_filterMap.mp h with ⟨i, _, hx⟩
  exact (List.mem_filter.mp (mem_of_getLast? hx)).1

/-- Membership in `uniqNonJoint`: a non-joint member of the group. -/
theorem mem_uniqNonJoint {g : List Rec} {x : Rec} (h : x ∈ uniqNonJoint g) :
    x ∈ g ∧ x.isJoint = false := by
  unfold uniqNonJoint at h
  have h2 := List.mem_filter.mp (uniqById_subset h)
  refine ⟨h2.1, ?_⟩
  simpa using h2.2

/-- Elements of a `pairsOfGroup2` proposal are non-joint members of the
group, and the pair is `(keep, r)` with distinct ids. -/
theorem pairsOfGroup2_shape {g : List Rec} {p : Rec × Rec}
    (h : p ∈ pairsOfGroup2 g) :
    p.1 ∈ g ∧ p.2 ∈ g ∧ p.1.isJoint = false ∧ p.2.isJoint = false ∧
      p.2.id ≠ p.1.id ∧ p.1 ∈ uniqNonJoint g ∧ p.2 ∈ uniqNonJoint g ∧
      maxByTokName (uniqNonJoint g) = some p.1 ∧ 2 ≤ g.length := by
  unfold pairsOfGroup2 at h
  by_cases h1 : g.length < 2
  · rw [if_pos h1] at h; exact absurd h (List.not_mem_nil p)
  · rw [if_neg h1] at h
    by_cases h2 : (uniqNonJoint g).length < 2
    · rw [if_pos h2] at h; exact absurd h (List.not_mem_nil p)
    · rw [if_neg h2] at h
      rcases hmax : maxByTokName (uniqNonJoint g) with _ | keep
      · rw [hmax] at h; exact absurd h (List.not_mem_nil p)
      · rw [hmax] at h
        rcases List.mem_filterMap.mp h with ⟨r, hr, hpr⟩
        by_cases hne : r.id ≠ keep.id
        · rw [if_pos hne] at hpr
          have hp : p = (keep, r) := (Option.some_inj.mp hpr).symm
          have hk := mem_uniqNonJoint (maxByTokName_mem hmax)
          have hrr := mem_uniqNonJoint hr
          subst hp
          refine ⟨hk.1, hrr.1, hk.2, hrr.2, hne, maxByTokName_mem hmax, hr, ?_,
            by omega⟩
          simp [hmax]
        · rw [if_neg hne] at hpr
          exact absurd hpr (by simp)

/-- The guards of `subsetPair`, extracted from a proposal. -/
theorem subsetPair_shape {ambig : List (List Char)} {r other : Rec} {p : Rec × Rec}
    (h : p ∈ subsetPair ambig r other) :
    other.isJoint = false ∧ tokStrictSubset r.tokens other.tokens = true ∧
      p = pickKeep other r := by
  unfold subsetPair at h
  by_cases h1 : other.isJoint = true
  · simp [h1] at h
  · rw [if_neg (by simpa using h1)] at h
    by_cases h2 : tokStrictSubset r.tokens other.tokens = true
    · rw [if_pos (by simpa using h2)] at h
      refine ⟨by simpa using h1, h2, ?_⟩
      by_cases h3 : r.tokens.length = 1
      · rw [if_pos h3] at h
        split at h
        · rename_i t hts
          by_cases h4 : t ∈ ambig ∨ ¬ r.isProper = true
          · rw [if_pos (by simpa using h4)] at h
            exact absurd h (List.not_mem_nil p)
          · rw [if_neg (by simpa using h4)] at h
            simpa using h
        · exact absurd h (List.not_mem_nil p)
      · rw [if_neg h3] at h
        simpa using h
    · rw [if_neg (by simpa using h2)] at h
      exact absurd h (List.not_mem_nil p)

/-- The guards of `subsetPairAlias`, extracted from a proposal. -/
theorem subsetPairAlias_shape {r other : Rec} {p : Rec × Rec}
    (h : p ∈ subsetPairAlias r other) :
    other.isJoint = false ∧ tokStrictSubset r.aliasTokens other.aliasTokens = true ∧
      p = pickKeep other r := by
  unfold subsetPairAlias at h
  by_cases h1 : other.isJoint = true
  · simp [h1] at h
  · rw [if_neg (by simpa using h1)] at h
    by_cases h2 : tokStrictSubset r.aliasTokens other.aliasTokens = true
    · rw [if_pos (by simpa using h2)] at h
      refine ⟨by simpa using h1, h2, ?_⟩
      by_cases h3 : r.aliasTokens.length = 1
      · rw [if_pos h3] at h
        exact absurd h (List.not_mem_nil p)
      · rw [if_neg h3] at h
        simpa using h
    · rw [if_neg (by simpa using h2)] at h
      exact absurd h (List.not_mem_nil p)

/-- The guards of `fuzzyPair`, extracted from a proposal. -/
theorem fuzzyPair_shape {a b : Rec} {p : Rec × Rec} (h : p ∈ fuzzyPair a b) :
    a.isJoint = false ∧ b.isJoint = false ∧ a.tokens ≠ b.tokens ∧
      (∃ da db,
        a.tokens.filter (fun t => ¬ tokMem t b.tokens) = [da] ∧
        b.tokens.filter (fun t => ¬ tokMem t a.tokens) = [db] ∧
        levenshtein da db ≤ 2 ∧
        (levenshtein da db = 2 → 3 < da.length ∧ 3 < db.length) ∧
        middleInitialConflicts a.normL b.normL = false) ∧
      p = pickKeep a b := by
  unfold fuzzyPair at h
  by_cases h1 : a.isJoint = true ∨ b.isJoint = true
  · rw [if_pos (by simpa using h1)] at h
    exact absurd h (List.not_mem_nil p)
  · rw [if_neg (by simpa using h1)] at h
    rcases not_or.mp h1 with ⟨h1a, h1b⟩
    by_cases h2 : a.tokens = b.tokens
    · rw [if_pos h2] at h; exact absurd h (List.not_mem_nil p)
    · rw [if_neg h2] at h
      split at h
      · rename_i da db hda hdb
        by_cases h3 : levenshtein da db > 2
        · rw [if_pos h3] at h; exact absurd h (List.not_mem_nil p)
        · rw [if_neg h3] at h
          by_cases h4 : middleInitialConflicts a.normL b.normL = true
          · simp [h4] at h
          · rw [if_neg (by simpa using h4)] at h
            by_cases h5 : levenshtein da db = 2 ∧ (da.length ≤ 3 ∨ db.length ≤ 3)
            · rw [if_pos h5] at h; exact absurd h (List.not_mem_nil p)
            · rw [if_neg h5] at h
              by_cases h6 : levenshtein da db = 2 ∧ 8 ≤ da.length ∧ 8 ≤ db.length ∧
                  da.length = db.length
              · rw [if_pos h6] at h; exact absurd h (List.not_mem_nil p)
              · rw [if_neg h6] at h
                refine ⟨by simpa using h1a, by simpa using h1b, h2,
                  ⟨da, db, hda, hdb, by omega, ?_, by simpa using h4⟩,
                  by simpa using h⟩
                intro hlev
                constructor
                · by_contra hcon
                  exact h5 ⟨hlev, Or.inl (by omega)⟩
                · by_contra hcon
                  exact h5 ⟨hlev, Or.inr (by omega)⟩
      · exact absurd h (List.not_mem_nil p)

/-- A pair of `allPairs` has both components in the list. -/
theorem allPairs_mem {l : List Nat} {ij : Nat × Nat} (h : ij ∈ allPairs l) :
    ij.1 ∈ l ∧ ij.2 ∈ l := by
  induction l with
  | nil => simp [allPairs] at h
  | cons x xs ih =>
    simp only [allPairs, List.mem_append] at h
    rcases h with h | h
    · rcases List.mem_map.mp h with ⟨y, hy, hxy⟩
      rw [← hxy]
      exact ⟨List.mem_cons_self _ _, List.mem_cons_of_mem _ hy⟩
    · rcases ih h with ⟨h1, h2⟩
      exact ⟨List.mem_cons_of_mem _ h1, List.mem_cons_of_mem _ h2⟩

/-- An index listed in a blocking bucket belongs to a proper, multi-token
record of the list. -/
theorem blockIndex_idx_proper {records : List Rec}
    {kg : List (List Char) × List Nat} (hkg : kg ∈ blockIndex records)
    {j : Nat} (hj : j ∈ kg.2) :
    ∃ rec, records.get? j = some rec ∧ rec.isProper = true ∧
      2 ≤ rec.tokens.length := by
  unfold blockIndex at hkg
  rcases List.mem_map.mp hkg with ⟨k, _, hkg2⟩
  rw [← hkg2] at hj
  simp only at hj
  rw [mem_firstDedup] at hj
  rcases List.mem_map.mp hj with ⟨e, he, hej⟩
  have he2 := (List.mem_filter.mp he).1
  unfold blockEntries at he2
  rcases List.mem_flatMap.mp he2 with ⟨⟨i2, rec⟩, hir, hei⟩
  simp only at hei
  by_cases hg : rec.tokens.length < 2 ∨ ¬ rec.isProper = true
  · rw [if_pos (by simpa using hg)] at hei
    exact absurd hei (List.not_mem_nil e)
  · rw [if_neg (by simpa using hg)] at hei
    rcases not_or.mp hg with ⟨hg1, hg2⟩
    rcases List.mem_map.mp hei with ⟨k2, _, hke⟩
    have hj2 : i2 = j := by rw [← hej, ← hke]
    refine ⟨rec, ?_, by simpa using hg2, by omega⟩
    rw [← hj2]
    exact List.mem_enum_iff_get?.mp hir

/-- Every strategy-4 proposal comes from two indexed records sharing a
bucket, with all the fuzzy guards. -/
theorem strategy4_shape {records : List Rec} {p : Rec × Rec}
    (h : p ∈ strategy4 records) :
    ∃ a b, a ∈ records ∧ b ∈ records ∧
      a.isProper = true ∧ b.isProper = true ∧
      a.isJoint = false ∧ b.isJoint = false ∧ a.tokens ≠ b.tokens ∧
      (∃ da db,
        a.tokens.filter (fun t => ¬ tokMem t b.tokens) = [da] ∧
        b.tokens.filter (fun t => ¬ tokMem t a.tokens) = [db] ∧
        levenshtein da db ≤ 2 ∧
        (levenshtein da db = 2 → 3 < da.length ∧ 3 < db.length) ∧
        middleInitialConflicts a.normL b.normL = false) ∧
      p = pickKeep a b := by
  unfold strategy4 at h
  rcases List.mem_flatMap.mp h with ⟨kg, hkg, hp⟩
  by_cases hlen : kg.2.length < 2
  · rw [if_pos hlen] at hp; exact absurd hp (List.not_mem_nil p)
  · rw [if_neg hlen] at hp
    rcases List.mem_flatMap.mp hp with ⟨ij, hij, hpj⟩
    rcases allPairs_mem hij with ⟨hi1, hi2⟩
    rcases blockIndex_idx_proper hkg hi1 with ⟨a, ha, hap, _⟩
    rcases blockIndex_idx_proper hkg hi2 with ⟨b, hb, hbp, _⟩
    rw [ha, hb] at hpj
    simp only at hpj
    rcases fuzzyPair_shape hpj with ⟨hja, hjb, hne, hguards, hpick⟩
    exact ⟨a, b, List.get?_mem ha, List.get?_mem hb, hap, hbp, hja, hjb, hne,
      hguards, hpick⟩

/-- C2 (amended): under the token-reorder, alias, subset, alias-subset and
fuzzy strategies a joint entity never appears on either side of a proposal;
the exact-normalized strategy (strategy 1) carries no such exclusion, as the
counterexample shows. -/
theorem c2_joint_excluded_outside_exact (records : List Rec)
    (ambig : List (List Char)) (p : Rec × Rec)
    (h : p ∈ strategy2 records ++ strategy2b records ++
      strategy3 ambig records ++ strategy3b records ++ strategy4 records) :
    p.1.isJoint = false ∧ p.2.isJoint = false := by
  simp only [List.mem_append] at h
  have hpick : ∀ a b : Rec, a.isJoint = false → b.isJoint = false →
      p = pickKeep a b → p.1.isJoint = false ∧ p.2.isJoint = false := by
    intro a b hja hjb hp
    rcases pickKeep_cases a b with hc | hc <;> rw [hp, hc]
    · exact ⟨hja, hjb⟩
    · exact ⟨hjb, hja⟩
  rcases h with ((((h | h) | h) | h) | h)
  · rcases List.mem_flatMap.mp h with ⟨kg, _, hp⟩
    have hs := pairsOfGroup2_shape hp
    exact ⟨hs.2.2.1, hs.2.2.2.1⟩
  · rcases List.mem_flatMap.mp h with ⟨kg, _, hp⟩
    have hs := pairsOfGroup2_shape hp
    exact ⟨hs.2.2.1, hs.2.2.2.1⟩
  · unfold strategy3 at h
    rcases List.mem_flatMap.mp h with ⟨⟨i, r⟩, _, hp⟩
    simp only at hp
    by_cases h1 : r.tokens.length < 2
    · rw [if_pos h1] at hp; exact absurd hp (List.not_mem_nil p)
    · rw [if_neg h1] at hp
      by_cases h2 : r.isJoint = true
      · simp [h2] at hp
      · rw [if_neg (by simpa using h2)] at hp
        rcases List.mem_flatMap.mp hp with ⟨j, _, hpj⟩
        by_cases h3 : j = i
        · rw [if_pos h3] at hpj; exact absurd hpj (List.not_mem_nil p)
        · rw [if_neg h3] at hpj
          rcases hro : records.get? j with _ | other <;> rw [hro] at hpj
          · simp at hpj
          · simp only at hpj
            rcases subsetPair_shape hpj with ⟨hjo, _, hpk⟩
            exact hpick other r hjo (by simpa using h2) hpk
  · unfold strategy3b at h
    rcases List.mem_flatMap.mp h with ⟨⟨i, r⟩, _, hp⟩
    simp only at hp
    by_cases h1 : r.aliasTokens.length < 2 ∨ r.isJoint = true
    · rw [if_pos (by simpa using h1)] at hp
      exact absurd hp (List.not_mem_nil p)
    · rw [if_neg (by simpa using h1)] at hp
      rcases not_or.mp h1 with ⟨_, h1b⟩
      rcases List.mem_flatMap.mp hp with ⟨j, _, hpj⟩
      by_cases h3 : j = i
      · rw [if_pos h3] at hpj; exact absurd hpj (List.not_mem_nil p)
      · rw [if_neg h3] at hpj
        rcases hro : records.get? j with _ | other <;> rw [hro] at hpj
        · simp at hpj
        · simp only at hpj
          rcases subsetPairAlias_shape hpj with ⟨hjo, _, hpk⟩
          exact hpick other r hjo (by simpa using h1b) hpk
  · rcases strategy4_shape h with ⟨a, b, _, _, _, _, hja, hjb, _, _, hpk⟩
    exact hpick a b hja hjb hpk

/-- Witness for the amended C2 theorem: a concrete token-reorder proposal
whose two sides are non-joint. -/
theorem c2_joint_excluded_outside_exact_witness :
    (buildRec (personE "1" "John Smith"), buildRec (personE "2" "JOHN SMITH")) ∈
        strategy2 (recordsOf smithEntities) ++ strategy2b (recordsOf smithEntities) ++
          strategy3 (ambiguousLastnames (recordsOf smithEntities)) (recordsOf smithEntities) ++
          strategy3b (recordsOf smithEntities) ++ strategy4 (recordsOf smithEntities) ∧
      (buildRec (personE "1" "John Smith")).isJoint = false ∧
      (buildRec (personE "2" "JOHN SMITH")).isJoint = false :=
  ⟨by decide,
    c2_joint_excluded_outside_exact (recordsOf smithEntities)
      (ambiguousLastnames (recordsOf smithEntities))
      (buildRec (personE "1" "John Smith"), buildRec (personE "2" "JOHN SMITH"))
      (by decide)⟩


/-- C5 (amended): every bounded-fuzzy proposal satisfies: both records pass
the proper-noun check, exactly one token differs on each side, the edit
distance of the differing tokens is at most 2, and — when that distance is
exactly 2 — neither differing token has length ≤ 3.  (At distance 1 the
length guard does not apply, as the counterexample shows.) -/
theorem c5_fuzzy_guards (records : List Rec) (p : Rec × Rec)
    (h : p ∈ strategy4 records) :
    ∃ a b, a ∈ records ∧ b ∈ records ∧ p = pickKeep a b ∧
      a.isProper = true ∧ b.isProper = true ∧
      ∃ da db,
        a.tokens.filter (fun t => ¬ tokMem t b.tokens) = [da] ∧
        b.tokens.filter (fun t => ¬ tokMem t a.tokens) = [db] ∧
        levenshtein da db ≤ 2 ∧
        (levenshtein da db = 2 → 3 < da.length ∧ 3 < db.length) := by
  rcases strategy4_shape h with
    ⟨a, b, ha, hb, hap, hbp, _, _, _, ⟨da, db, hda, hdb, hle, hlen, _⟩, hpk⟩
  exact ⟨a, b, ha, hb, hpk, hap, hbp, da, db, hda, hdb, hle, hlen⟩

/-- Witness for the amended C5 theorem at the OCR scenario records. -/
theorem c5_fuzzy_guards_witness :
    (buildRec (personED "1" "Jonathan Carlsen" "a"),
        buildRec (personED "2" "Jonathan Carlson" "b")) ∈
      strategy4 (recordsOf carlsenEntities) ∧
    (∃ a b, a ∈ recordsOf carlsenEntities ∧ b ∈ recordsOf carlsenEntities ∧
      (buildRec (personED "1" "Jonathan Carlsen" "a"),
        buildRec (personED "2" "Jonathan Carlson" "b")) = pickKeep a b ∧
      a.isProper = true ∧ b.isProper = true ∧
      ∃ da db,
        a.tokens.filter (fun t => ¬ tokMem t b.tokens) = [da] ∧
        b.tokens.filter (fun t => ¬ tokMem t a.tokens) = [db] ∧
        levenshtein da db ≤ 2 ∧
        (levenshtein da db = 2 → 3 < da.length ∧ 3 < db.length)) :=
  ⟨by decide,
    c5_fuzzy_guards (recordsOf carlsenEntities)
      (buildRec (personED "1" "Jonathan Carlsen" "a"),
        buildRec (personED "2" "Jonathan Carlson" "b")) (by decide)⟩

/-! ### Relationship rewrite lemmas -/

theorem mem_insRowDesc {rt : RelTable} {x r : RelRow} {l : List RelRow}
    (h : r ∈ insRowDesc rt x l) : r = x ∨ r ∈ l := by
  induction l with
  | nil => simpa [insRowDesc] using h
  | cons y ys ih =>
    unfold insRowDesc at h
    split at h
    · rcases List.mem_cons.mp h with h1 | h1
      · right; rw [h1]; exact List.mem_cons_self _ _
      · rcases ih h1 with h2 | h2
        · exact Or.inl h2
        · exact Or.inr (List.mem_cons_of_mem _ h2)
    · rcases List.mem_cons.mp h with h1 | h1
      · exact Or.inl h1
      · exact Or.inr h1

theorem insRowDesc_mem {rt : RelTable} (x : RelRow) (l : List RelRow) :
    x ∈ insRowDesc rt x l ∧ ∀ r ∈ l, r ∈ insRowDesc rt x l := by
  induction l with
  | nil => simp [insRowDesc]
  | cons y ys ih =>
    unfold insRowDesc
    split
    · refine ⟨List.mem_cons_of_mem _ ih.1, ?_⟩
      intro r hr
      rcases List.mem_cons.mp hr with h1 | h1
      · rw [h1]; exact List.mem_cons_self _ _
      · exact List.mem_cons_of_mem _ (ih.2 r h1)
    · refine ⟨List.mem_cons_self _ _, ?_⟩
      intro r hr
      exact List.mem_cons_of_mem _ hr

theorem mem_sortRowsDesc {rt : RelTable} {r : RelRow} {l : List RelRow} :
    r ∈ sortRowsDesc rt l ↔ r ∈ l := by
  induction l with
  | nil => simp [sortRowsDesc]
  | cons x xs ih =>
    unfold sortRowsDesc at ih ⊢
    rw [List.foldr_cons]
    constructor
    · intro h
      rcases mem_insRowDesc h with h1 | h1
      · rw [h1]; exact List.mem_cons_self _ _
      · exact List.mem_cons_of_mem _ (ih.mp h1)
    · intro h
      rcases List.mem_cons.mp h with h1 | h1
      · rw [h1]; exact (insRowDesc_mem x _).1
      · exact (insRowDesc_mem x _).2 r (ih.mpr h1)

/-- Insertion keeps the list weight-descending. -/
theorem insRowDesc_pairwise {rt : RelTable} {x : RelRow} {l : List RelRow}
    (h : l.Pairwise (fun a b => weightOf rt b ≤ weightOf rt a)) :
    (insRowDesc rt x l).Pairwise (fun a b => weightOf rt b ≤ weightOf rt a) := by
  induction l with
  | nil => simp [insRowDesc]
  | cons y ys ih =>
    rcases List.pairwise_cons.mp h with ⟨hy, hys⟩
    unfold insRowDesc
    split
    · rename_i hgt
      rw [List.pairwise_cons]
      constructor
      · intro r hr
        rcases mem_insRowDesc hr with h1 | h1
        · rw [h1]; omega
        · exact hy r h1
      · exact ih hys
    · rename_i hle
      rw [List.pairwise_cons]
      constructor
      · intro r hr
        rcases List.mem_cons.mp hr with h1 | h1
        · rw [h1]; omega
        · have := hy r h1
          omega
      · exact h

theorem sortRowsDesc_pairwise (rt : RelTable) (l : List RelRow) :
    (sortRowsDesc rt l).Pairwise (fun a b => weightOf rt b ≤ weightOf rt a) := by
  induction l with
  | nil => simp [sortRowsDesc]
  | cons x xs ih =>
    unfold sortRowsDesc at ih ⊢
    rw [List.foldr_cons]
    exact insRowDesc_pairwise ih

theorem mem_dedupByKeyAux {seen : List (String × String)} {l : List RelRow}
    {r : RelRow} (h : r ∈ dedupByKeyAux seen l) : r ∈ l := by
  induction l generalizing seen with
  | nil => simpa [dedupByKeyAux] using h
  | cons x xs ih =>
    unfold dedupByKeyAux at h
    split at h
    · exact List.mem_cons_of_mem _ (ih h)
    · rcases List.mem_cons.mp h with h1 | h1
      · rw [h1]; exact List.mem_cons_self _ _
      · exact List.mem_cons_of_mem _ (ih h1)

/-- Keys of the deduplicated output avoid `seen` and are pairwise distinct. -/
theorem dedupByKeyAux_keys {seen : List (String × String)} {l : List RelRow} :
    (∀ r ∈ dedupByKeyAux seen l, edgeKey r ∉ seen) ∧
      ((dedupByKeyAux seen l).map edgeKey).Nodup := by
  induction l generalizing seen with
  | nil => simp [dedupByKeyAux]
  | cons x xs ih =>
    unfold dedupByKeyAux
    split
    · exact ih
    · rename_i hx
      constructor
      · intro r hr
        rcases List.mem_cons.mp hr with h1 | h1
        · rw [h1]; exact hx
        · have := (@ih (edgeKey x :: seen)).1 r h1
          intro hcon
          exact this (List.mem_cons_of_mem _ hcon)
      · rw [List.map_cons, List.nodup_cons]
        constructor
        · intro hcon
          rcases List.mem_map.mp hcon with ⟨s, hs, hsk⟩
          have := (@ih (edgeKey x :: seen)).1 s hs
          exact this (hsk ▸ List.mem_cons_self _ _)
        · exact (@ih (edgeKey x :: seen)).2

/-- Every key present in the input keeps one representative. -/
theorem dedupByKeyAux_complete {seen : List (String × String)} {l : List RelRow}
    {s : RelRow} (hs : s ∈ l) (hsk : edgeKey s ∉ seen) :
    ∃ r ∈ dedupByKeyAux seen l, edgeKey r = edgeKey s := by
  induction l generalizing seen with
  | nil => exact absurd hs (List.not_mem_nil s)
  | cons x xs ih =>
    unfold dedupByKeyAux
    split
    · rename_i hx
      rcases List.mem_cons.mp hs with h1 | h1
      · exact absurd (h1 ▸ hx) (h1 ▸ hsk)
      · exact ih h1 hsk
    · rename_i hx
      by_cases hks : edgeKey s = edgeKey x
      · exact ⟨x, List.mem_cons_self _ _, hks.symm⟩
      · rcases List.mem_cons.mp hs with h1 | h1
        · exact absurd (congrArg edgeKey h1) hks
        · rcases ih h1 (by
            intro hcon
            rcases List.mem_cons.mp hcon with h2 | h2
            · exact hks h2
            · exact hsk h2) with ⟨r, hr, hrk⟩
          exact ⟨r, List.mem_cons_of_mem _ hr, hrk⟩

/-- On a weight-descending list, the kept representative of a key carries
the maximal weight among the rows sharing the key. -/
theorem dedupByKeyAux_max {rt : RelTable} {seen : List (String × String)}
    {l : List RelRow}
    (hsort : l.Pairwise (fun a b => weightOf rt b ≤ weightOf rt a))
    {r : RelRow} (hr : r ∈ dedupByKeyAux seen l)
    {s : RelRow} (hs : s ∈ l) (hks : edgeKey s = edgeKey r) :
    weightOf rt s ≤ weightOf rt r := by
  induction l generalizing seen with
  | nil => exact absurd hs (List.not_mem_nil s)
  | cons x xs ih =>
    rcases List.pairwise_cons.mp hsort with ⟨hx, hxs⟩
    unfold dedupByKeyAux at hr
    split at hr
    · rename_i hseen
      rcases List.mem_cons.mp hs with h1 | h1
      · exfalso
        have hnot := (@dedupByKeyAux_keys seen xs).1 r hr
        rw [← hks, h1] at hnot
        exact hnot hseen
      · exact ih hxs hr h1
    · rename_i hseen
      rcases List.mem_cons.mp hr with h1 | h1
      · rcases List.mem_cons.mp hs with h2 | h2
        · rw [h1, h2]
        · rw [h1]
          exact hx s h2
      · rcases List.mem_cons.mp hs with h2 | h2
        · exfalso
          have hnot := (@dedupByKeyAux_keys (edgeKey x :: seen) xs).1 r h1
          rw [← hks, h2] at hnot
          exact hnot (List.mem_cons_self _ _)
        · exact ih hxs h1 h2

theorem mem_dedupRels {rt : RelTable} {l : List RelRow} {r : RelRow}
    (h : r ∈ dedupRels rt l) : r ∈ l := by
  unfold dedupRels at h
  split at h
  · split at h
    · exact mem_sortRowsDesc.mp (mem_dedupByKeyAux h)
    · exact mem_dedupByKeyAux h
  · exact h

/-- C7 (amended): after a resolution that applied at least one merge, no
output relationship is a self-loop *with respect to the filter the code
runs*: when both id columns are present the ids differ (even if the name
fields coincide, as the counterexample shows); only when the id columns are
not both present and both name columns are does the name-based filter
apply. -/
theorem c7_no_self_loops (es : List Entity) (rt : RelTable)
    (pairs : List (String × String)) (hne : pairs ≠ [])
    (r : RelRow) (hr : r ∈ (applyMerges es rt pairs).2.rows) :
    (rt.hasSourceId = true ∧ rt.hasTargetId = true → r.sourceId ≠ r.targetId) ∧
    (¬ (rt.hasSourceId = true ∧ rt.hasTargetId = true) →
      rt.hasSource = true ∧ rt.hasTarget = true → r.source ≠ r.target) := by
  rw [applyMerges, if_neg hne] at hr
  have hr2 : r ∈ redirectedRows es rt pairs := mem_dedupRels hr
  unfold redirectedRows dropSelfLoops at hr2
  constructor
  · rintro ⟨h1, h2⟩
    rw [if_pos (by simp [h1, h2])] at hr2
    have := (List.mem_filter.mp hr2).2
    simpa using this
  · intro hid ⟨h1, h2⟩
    rw [if_neg (by simpa using hid)] at hr2
    rw [if_pos (by simp [h1, h2])] at hr2
    have := (List.mem_filter.mp hr2).2
    simpa using this

/-- Witness for the amended C7 theorem: the concrete two-column snapshot. -/
theorem c7_no_self_loops_witness :
    findMergeCandidates smithEntities bobRels.rows ≠ [] ∧
    relR "Bob" "Bob" "7" "8" 1 ∈
      (applyMerges smithEntities bobRels
        (findMergeCandidates smithEntities bobRels.rows)).2.rows ∧
    ((bobRels.hasSourceId = true ∧ bobRels.hasTargetId = true →
        (relR "Bob" "Bob" "7" "8" 1).sourceId ≠ (relR "Bob" "Bob" "7" "8" 1).targetId) ∧
      (¬ (bobRels.hasSourceId = true ∧ bobRels.hasTargetId = true) →
        bobRels.hasSource = true ∧ bobRels.hasTarget = true →
        (relR "Bob" "Bob" "7" "8" 1).source ≠ (relR "Bob" "Bob" "7" "8" 1).target)) :=
  ⟨by decide, by decide,
    c7_no_self_loops smithEntities bobRels
      (findMergeCandidates smithEntities bobRels.rows) (by decide)
      (relR "Bob" "Bob" "7" "8" 1) (by decide)⟩

/-- C6: after a resolution with at least one merge, over a table carrying
both name columns and a weight column: every directed `(source, target)` key
appears at most once in the output; every key of the redirected rows is still
represented (so `(A,B)` and `(B,A)` are never collapsed together); and each
surviving row carries the maximal weight among the redirected rows sharing
its key. -/
theorem c6_directed_dedup (es : List Entity) (rt : RelTable)
    (pairs : List (String × String)) (hne : pairs ≠ [])
    (hst : rt.hasSource = true ∧ rt.hasTarget = true)
    (hw : rt.hasCombinedDegree = true ∨ rt.hasWeight = true) :
    (((applyMerges es rt pairs).2.rows).map edgeKey).Nodup ∧
    (∀ s ∈ redirectedRows es rt pairs,
      ∃ r ∈ (applyMerges es rt pairs).2.rows, edgeKey r = edgeKey s) ∧
    (∀ r ∈ (applyMerges es rt pairs).2.rows,
      ∀ s ∈ redirectedRows es rt pairs,
      edgeKey s = edgeKey r → weightOf rt s ≤ weightOf rt r) := by
  rw [applyMerges, if_neg hne]
  have hmain : dedupRels rt (redirectedRows es rt pairs) =
      dedupByKeyAux [] (sortRowsDesc rt (redirectedRows es rt pairs)) := by
    unfold dedupRels
    rw [if_pos (by simp [hst.1, hst.2])]
    rw [if_pos (by rcases hw with h | h <;> simp [h])]
  simp only [hmain]
  refine ⟨(dedupByKeyAux_keys).2, ?_, ?_⟩
  · intro s hs
    rcases @dedupByKeyAux_complete [] _ _
      (mem_sortRowsDesc.mpr hs) (by simp) with ⟨r, hr, hrk⟩
    exact ⟨r, hr, hrk⟩
  · intro r hr s hs hks
    exact dedupByKeyAux_max (sortRowsDesc_pairwise rt _) hr
      (mem_sortRowsDesc.mpr hs) hks

/-- Witness for the C6 theorem: duplicate directed edges with weights and a
reversed pair, over a snapshot that merges two entities. -/
theorem c6_directed_dedup_witness :
    findMergeCandidates smithEntities dupEdgeRels.rows ≠ [] ∧
    (((applyMerges smithEntities dupEdgeRels
        (findMergeCandidates smithEntities dupEdgeRels.rows)).2.rows).map
          edgeKey).Nodup ∧
    ∀ s ∈ redirectedRows smithEntities dupEdgeRels
        (findMergeCandidates smithEntities dupEdgeRels.rows),
      ∃ r ∈ (applyMerges smithEntities dupEdgeRels
          (findMergeCandidates smithEntities dupEdgeRels.rows)).2.rows,
        edgeKey r = edgeKey s := by
  have h := c6_directed_dedup smithEntities dupEdgeRels
    (findMergeCandidates smithEntities dupEdgeRels.rows) (by decide)
    ⟨by decide, by decide⟩ (Or.inr (by decide))
  exact ⟨by decide, h.1, h.2.1⟩

/-- One description-combination step preserves the frame relation. -/
theorem descStep_frame (es cur : List Entity) (kv : String × String)
    (hcur : DescFrame es cur) : DescFrame es (descStep es cur kv) := by
  unfold descStep
  split
  · split
    · rename_i mIdx kIdx hLm hLk o1 o2 keepE mergeE hk hm
      constructor
      · rw [List.length_set]; exact hcur.1
      · intro i x e hx he
        by_cases hik : kIdx = i
        · subst hik
          rw [List.get?_set_eq, hk] at hx
          rcases hcur.2 kIdx keepE e hk he with ⟨h1, h2, h3, h4, ms, h5⟩
          have hx2 : x = { keepE with
              description := combineDesc keepE.description mergeE.description } := by
            have h6 : some ({ keepE with
                description := combineDesc keepE.description mergeE.description }) =
                some x := hx
            exact (Option.some_inj.mp h6).symm
          subst hx2
          refine ⟨h1, h2, h3, h4, ms ++ [mergeE.description], ?_⟩
          rw [List.foldl_append, ← h5]
          rfl
        · rw [List.get?_set_ne _ _ hik] at hx
          exact hcur.2 i x e hx he
    · exact hcur
  · exact hcur

/-- The description-combination fold never touches id, title, type or
degree, and only rewrites a description by further `combineDesc` steps. -/
theorem applyDescMerges_frame (es : List Entity) (mm : List (String × String)) :
    DescFrame es (applyDescMerges es mm) := by
  unfold applyDescMerges
  have hgen : ∀ (l : List (String × String)) (cur : List Entity),
      DescFrame es cur → DescFrame es (l.foldl (descStep es) cur) := by
    intro l
    induction l with
    | nil => exact fun cur h => h
    | cons kv rest ih =>
      intro cur hcur
      rw [List.foldl_cons]
      exact ih _ (descStep_frame es cur kv hcur)
  apply hgen
  refine ⟨rfl, ?_⟩
  intro i x e hx he
  rw [hx] at he
  rcases Option.some_inj.mp he with rfl
  exact ⟨rfl, rfl, rfl, rfl, [], rfl⟩

/-- One description step leaves every non-keep row entirely unchanged: it
writes only at the keep index of its own merge-map entry. -/
theorem descStep_desc_unchanged (es : List Entity) (mm : List (String × String))
    (cur : List Entity) (kv : String × String) (hkv : kv ∈ mm) (i : Nat)
    (hni : ¬ IsKeepIdx es mm i) :
    (descStep es cur kv).get? i = cur.get? i := by
  unfold descStep
  split
  · split
    · rename_i mIdx kIdx hLm hLk o1 o2 keepE mergeE hk hm
      have hik : kIdx ≠ i := by
        intro hc
        exact hni ⟨kv, hkv, by rw [← hc]; exact hLk⟩
      exact List.get?_set_ne _ _ hik
    · rfl
  · rfl

/-- The whole description fold leaves every non-keep row unchanged. -/
theorem applyDescMerges_desc_unchanged (es : List Entity)
    (mm : List (String × String)) (i : Nat) (hni : ¬ IsKeepIdx es mm i) :
    (applyDescMerges es mm).get? i = es.get? i := by
  unfold applyDescMerges
  have hgen : ∀ l : List (String × String), (∀ kv ∈ l, kv ∈ mm) →
      ∀ cur : List Entity, cur.get? i = es.get? i →
      (l.foldl (descStep es) cur).get? i = es.get? i := by
    intro l
    induction l with
    | nil => exact fun _ cur h => h
    | cons kv rest ih =>
      intro hsub cur hcur
      rw [List.foldl_cons]
      apply ih (fun kv2 h2 => hsub kv2 (List.mem_cons_of_mem _ h2))
      rw [descStep_desc_unchanged es mm cur kv (hsub kv (List.mem_cons_self _ _)) i hni]
      exact hcur
  exact hgen mm (fun kv h => h) es rfl

/-- C10 (amended): every surviving entity row agrees with its aligned input
row on id, title, type and degree; a row whose description differs from its
input is necessarily the keep row of a merge-map entry (only a keep
entity's description may change), and the new description is the input
description transformed by a sequence of `combineDesc` absorption steps
(each appends an absorbed description with a single space and strips
surrounding whitespace — pure prefix-preserving appending fails, as the
counterexample shows). -/
theorem c10_frame_property (es : List Entity) (rt : RelTable)
    (pairs : List (String × String)) (x : Entity)
    (h : x ∈ (applyMerges es rt pairs).1) :
    ∃ i e, es.get? i = some e ∧ e ∈ es ∧ x.id = e.id ∧ x.title = e.title ∧
      x.typ = e.typ ∧ x.degree = e.degree ∧
      (∃ ms : List String, x.description = ms.foldl combineDesc e.description) ∧
      (x.description ≠ e.description → IsKeepIdx es (buildMergeMap pairs) i) := by
  by_cases hne : pairs = []
  · rw [applyMerges, if_pos hne] at h
    rcases List.mem_iff_get?.mp h with ⟨i, hi⟩
    exact ⟨i, x, hi, h, rfl, rfl, rfl, rfl, ⟨[], rfl⟩, fun hc => absurd rfl hc⟩
  · rw [applyMerges, if_neg hne] at h
    unfold survivingEntities at h
    have h2 : x ∈ applyDescMerges es (buildMergeMap pairs) :=
      (List.mem_filter.mp h).1
    rcases List.mem_iff_get?.mp h2 with ⟨i, hi⟩
    rcases applyDescMerges_frame es (buildMergeMap pairs) with ⟨hlen, hframe⟩
    rcases hesi : es.get? i with _ | e
    · exfalso
      have h3 := List.get?_eq_none.mp hesi
      have h4 : i < (applyDescMerges es (buildMergeMap pairs)).length := by
        rcases List.get?_eq_some.mp hi with ⟨hlt, _⟩
        exact hlt
      omega
    · rcases hframe i x e hi hesi with ⟨h1, h2', h3, h4, ms, h5⟩
      refine ⟨i, e, hesi, List.get?_mem hesi, h1, h2', h3, h4, ⟨ms, h5⟩, ?_⟩
      intro hdesc
      by_contra hnk
      have hun := applyDescMerges_desc_unchanged es (buildMergeMap pairs) i hnk
      rw [hi, hesi] at hun
      exact hdesc (congrArg Entity.description (Option.some_inj.mp hun))

/-- Witness for the amended C10 theorem at the leading-whitespace scenario. -/
theorem c10_frame_property_witness :
    Entity.mk "1" "John Smith" "person" "A B" none ∈
      (applyMerges smithEntitiesD bobRels
        (findMergeCandidates smithEntitiesD bobRels.rows)).1 ∧
    (∃ i e, smithEntitiesD.get? i = some e ∧ e ∈ smithEntitiesD ∧
      (Entity.mk "1" "John Smith" "person" "A B" none).id = e.id ∧
      (Entity.mk "1" "John Smith" "person" "A B" none).title = e.title ∧
      (Entity.mk "1" "John Smith" "person" "A B" none).typ = e.typ ∧
      (Entity.mk "1" "John Smith" "person" "A B" none).degree = e.degree ∧
      (∃ ms : List String,
        (Entity.mk "1" "John Smith" "person" "A B" none).description =
          ms.foldl combineDesc e.description) ∧
      ((Entity.mk "1" "John Smith" "person" "A B" none).description ≠
          e.description →
        IsKeepIdx smithEntitiesD
          (buildMergeMap (findMergeCandidates smithEntitiesD bobRels.rows)) i)) :=
  ⟨by decide,
    c10_frame_property smithEntitiesD bobRels
      (findMergeCandidates smithEntitiesD bobRels.rows)
      (Entity.mk "1" "John Smith" "person" "A B" none) (by decide)⟩

/-! ### Orientation-deduplication lemmas -/

theorem dedupPairsAux_subset {seen l : List (String × String)}
    {p : String × String} (h : p ∈ dedupPairsAux seen l) : p ∈ l := by
  induction l generalizing seen with
  | nil => simpa [dedupPairsAux] using h
  | cons q t ih =>
    unfold dedupPairsAux at h
    split at h
    · exact List.mem_cons_of_mem _ (ih h)
    · rcases List.mem_cons.mp h with h1 | h1
      · rw [h1]; exact List.mem_cons_self _ _
      · exact List.mem_cons_of_mem _ (ih h1)

theorem dedupPairs_subset {l : List (String × String)} {p : String × String}
    (h : p ∈ dedupPairs l) : p ∈ l :=
  dedupPairsAux_subset h

theorem dedupPairsAux_or {l : List (String × String)} {p : String × String} :
    ∀ {seen : List (String × String)}, p ∈ l → p ∉ seen → (p.2, p.1) ∉ seen →
    p ∈ dedupPairsAux seen l ∨ (p.2, p.1) ∈ dedupPairsAux seen l := by
  induction l with
  | nil => intro seen h; exact absurd h (List.not_mem_nil p)
  | cons q t ih =>
    intro seen hp hs hrs
    unfold dedupPairsAux
    split
    · rename_i hq
      rcases List.mem_cons.mp hp with h1 | h1
      · exfalso
        rcases hq with hq | hq
        · exact hs (h1 ▸ hq)
        · exact hrs (by rw [h1]; exact hq)
      · exact ih h1 hs hrs
    · rename_i hq
      rcases List.mem_cons.mp hp with h1 | h1
      · left; rw [h1]; exact List.mem_cons_self _ _
      · by_cases hpq : p = q
        · left; rw [hpq]; exact List.mem_cons_self _ _
        · by_cases hrq : (p.2, p.1) = q
          · right; rw [hrq]; exact List.mem_cons_self _ _
          · have := ih h1 (by
                intro hc
                rcases List.mem_cons.mp hc with h2 | h2
                · exact hpq h2
                · exact hs h2) (by
                intro hc
                rcases List.mem_cons.mp hc with h2 | h2
                · exact hrq h2
                · exact hrs h2)
            rcases this with h2 | h2
            · exact Or.inl (List.mem_cons_of_mem _ h2)
            · exact Or.inr (List.mem_cons_of_mem _ h2)

theorem dedupPairs_or {l : List (String × String)} {p : String × String}
    (h : p ∈ l) : p ∈ dedupPairs l ∨ (p.2, p.1) ∈ dedupPairs l :=
  dedupPairsAux_or h (List.not_mem_nil p) (List.not_mem_nil (p.2, p.1))

theorem dedupPairsAux_prefix {l₁ l₂ : List (String × String)} {p : String × String} :
    ∀ {seen : List (String × String)}, p ∈ l₁ → (p.2, p.1) ∉ l₁ →
    p ∉ seen → (p.2, p.1) ∉ seen → p ∈ dedupPairsAux seen (l₁ ++ l₂) := by
  induction l₁ with
  | nil => intro seen h; exact absurd h (List.not_mem_nil p)
  | cons q t ih =>
    intro seen hp hrev hs hrs
    rw [List.cons_append]
    unfold dedupPairsAux
    split
    · rename_i hq
      rcases List.mem_cons.mp hp with h1 | h1
      · exfalso
        rcases hq with hq | hq
        · exact hs (h1 ▸ hq)
        · exact hrs (by rw [h1]; exact hq)
      · exact ih h1 (fun hc => hrev (List.mem_cons_of_mem _ hc)) hs hrs
    · rename_i hq
      rcases List.mem_cons.mp hp with h1 | h1
      · rw [h1]; exact List.mem_cons_self _ _
      · by_cases hpq : p = q
        · rw [hpq]; exact List.mem_cons_self _ _
        · apply List.mem_cons_of_mem
          apply ih h1 (fun hc => hrev (List.mem_cons_of_mem _ hc))
          · intro hc
            rcases List.mem_cons.mp hc with h2 | h2
            · exact hpq h2
            · exact hs h2
          · intro hc
            rcases List.mem_cons.mp hc with h2 | h2
            · exact hrev (by rw [h2]; exact List.mem_cons_self _ _)
            · exact hrs h2

/-- The no-reverse prefix lemma: a pair of an initial segment whose reverse
does not occur in that segment survives the orientation dedup. -/
theorem dedupPairs_prefix_mem {l₁ l₂ : List (String × String)}
    {p : String × String} (hp : p ∈ l₁) (hrev : (p.2, p.1) ∉ l₁) :
    p ∈ dedupPairs (l₁ ++ l₂) :=
  dedupPairsAux_prefix hp hrev (List.not_mem_nil p) (List.not_mem_nil (p.2, p.1))

/-! ### Utility lemmas for the idempotence proof -/

theorem firstDedupAux_sublist {α : Type} [DecidableEq α] (l : List α) :
    ∀ seen : List α, (firstDedupAux seen l).Sublist l := by
  induction l with
  | nil => intro seen; simp [firstDedupAux]
  | cons x xs ih =>
    intro seen
    unfold firstDedupAux
    split
    · exact (ih seen).cons x
    · exact (ih (x :: seen)).cons₂ x

theorem firstDedup_sublist {α : Type} [DecidableEq α] (l : List α) :
    (firstDedup l).Sublist l :=
  firstDedupAux_sublist l []

theorem firstDedupAux_nodup {α : Type} [DecidableEq α] (l : List α) :
    ∀ seen : List α, (∀ x ∈ firstDedupAux seen l, x ∉ seen) ∧
      (firstDedupAux seen l).Nodup := by
  induction l with
  | nil => intro seen; simp [firstDedupAux]
  | cons x xs ih =>
    intro seen
    unfold firstDedupAux
    split
    · exact ih seen
    · rename_i hx
      constructor
      · intro y hy
        rcases List.mem_cons.mp hy with h1 | h1
        · rw [h1]; exact hx
        · intro hc
          exact (ih (x :: seen)).1 y h1 (List.mem_cons_of_mem _ hc)
      · rw [List.nodup_cons]
        constructor
        · intro hc
          exact (ih (x :: seen)).1 x hc (List.mem_cons_self _ _)
        · exact (ih (x :: seen)).2

theorem firstDedup_nodup {α : Type} [DecidableEq α] (l : List α) :
    (firstDedup l).Nodup :=
  (firstDedupAux_nodup l []).2

theorem two_mem_le_length {α : Type} {l : List α} {x y : α}
    (hx : x ∈ l) (hy : y ∈ l) (hne : x ≠ y) : 2 ≤ l.length := by
  rcases l with _ | ⟨a, t⟩
  · exact absurd hx (List.not_mem_nil x)
  · rcases t with _ | ⟨b, t2⟩
    · exfalso
      have h1 : x = a := by simpa using hx
      have h2 : y = a := by simpa using hy
      exact hne (h1.trans h2.symm)
    · simp only [List.length_cons]
      omega

theorem firstDedupAux_of_nodup {α : Type} [DecidableEq α] (l : List α) :
    ∀ seen : List α, (∀ x ∈ l, x ∉ seen) → l.Nodup → firstDedupAux seen l = l := by
  induction l with
  | nil => intro seen _ _; rfl
  | cons x xs ih =>
    intro seen hseen hnd
    rcases List.nodup_cons.mp hnd with ⟨hx, hxs⟩
    unfold firstDedupAux
    rw [if_neg (hseen x (List.mem_cons_self _ _))]
    rw [ih (x :: seen) (fun y hy => by
      intro hc
      rcases List.mem_cons.mp hc with h1 | h1
      · exact hx (h1 ▸ hy)
      · exact hseen y (List.mem_cons_of_mem _ hy) h1) hxs]

theorem firstDedup_of_nodup {α : Type} [DecidableEq α] {l : List α}
    (h : l.Nodup) : firstDedup l = l :=
  firstDedupAux_of_nodup l [] (fun x _ => List.not_mem_nil x) h

theorem filter_id_singleton {g : List Rec} (h : (g.map (fun r => r.id)).Nodup)
    {r : Rec} (hr : r ∈ g) :
    g.filter (fun s => decide (s.id = r.id)) = [r] := by
  induction g with
  | nil => exact absurd hr (List.not_mem_nil r)
  | cons a t ih =>
    rw [List.map_cons, List.nodup_cons] at h
    rcases List.mem_cons.mp hr with h1 | h1
    · subst h1
      rw [List.filter_cons, if_pos (by simp)]
      have ht : t.filter (fun s => decide (s.id = r.id)) = [] := by
        rw [List.filter_eq_nil]
        intro s hs
        simp only [decide_eq_true_eq]
        intro hc
        exact h.1 (hc ▸ List.mem_map_of_mem (fun r => r.id) hs)
      rw [ht]
    · rw [List.filter_cons, if_neg (by
        simp only [decide_eq_true_eq]
        intro hc
        exact h.1 (hc ▸ List.mem_map_of_mem (fun r => r.id) h1))]
      exact ih h.2 h1

/-- With pairwise-distinct ids, the id-keyed dict comprehension is the
identity. -/
theorem uniqById_of_nodup {g : List Rec} (h : (g.map (fun r => r.id)).Nodup) :
    uniqById g = g := by
  unfold uniqById
  rw [firstDedup_of_nodup h, List.filterMap_map]
  have : ∀ r ∈ g, ((fun i => (g.filter (fun s => decide (s.id = i))).getLast?) ∘
      (fun r : Rec => r.id)) r = some r := by
    intro r hr
    simp only [Function.comp_apply]
    rw [filter_id_singleton h hr]
    rfl
  rw [List.filterMap_congr this]
  exact List.filterMap_some g

/-- Positions in a sublist transfer to ordered positions in the list. -/
theorem sublist_get?_pair {α : Type} {l₁ l₂ : List α}
    (hs : l₁.Sublist l₂) :
    ∀ {i j : Nat} {a b : α}, i < j → l₁.get? i = some a → l₁.get? j = some b →
    ∃ i' j', i' < j' ∧ l₂.get? i' = some a ∧ l₂.get? j' = some b := by
  induction hs with
  | slnil =>
    intro i j a b _ ha _
    simp at ha
  | cons x hsub ih =>
    intro i j a b hij ha hb
    rcases ih hij ha hb with ⟨i', j', hij', ha', hb'⟩
    exact ⟨i' + 1, j' + 1, by omega, by simpa using ha', by simpa using hb'⟩
  | cons₂ x hsub ih =>
    intro i j a b hij ha hb
    rcases i with _ | i2
    · rcases j with _ | j2
      · omega
      · rename_i l₁ l₂
        have ha2 : x = a := by simpa using ha
        have hb2 : l₁.get? j2 = some b := by simpa using hb
        have hbmem : b ∈ l₁ := List.get?_mem hb2
        have hbmem2 : b ∈ l₂ := hsub.subset hbmem
        rcases List.mem_iff_get?.mp hbmem2 with ⟨jb, hjb⟩
        exact ⟨0, jb + 1, by omega, by simp [ha2], by simpa using hjb⟩
    · rcases j with _ | j2
      · omega
      · simp only [List.get?_cons_succ] at ha hb
        rcases ih (by omega : i2 < j2) ha hb with ⟨i', j', hij', ha', hb'⟩
        exact ⟨i' + 1, j' + 1, by omega, by simpa using ha', by simpa using hb'⟩

/-- The groups of `groupByKey` are exactly the filters by their key. -/
theorem groupByKey_eq_filter {κ : Type} [DecidableEq κ] {f : Rec → κ}
    {l : List Rec} {kg : κ × List Rec} (h : kg ∈ groupByKey f l) :
    kg.2 = l.filter (fun r => decide (f r = kg.1)) := by
  unfold groupByKey at h
  rcases List.mem_map.mp h with ⟨k, _, hk⟩
  rw [← hk]

/-- Conversely, any inhabited key yields its group. -/
theorem groupByKey_mem {κ : Type} [DecidableEq κ] {f : Rec → κ}
    {l : List Rec} {r : Rec} (hr : r ∈ l) :
    (f r, l.filter (fun x => decide (f x = f r))) ∈ groupByKey f l := by
  unfold groupByKey
  apply List.mem_map.mpr
  refine ⟨f r, ?_, rfl⟩
  rw [mem_firstDedup]
  exact List.mem_map_of_mem f hr

/-- Forward characterization of strategy 1. -/
theorem strategy1_shape {records : List Rec} {p : Rec × Rec}
    (h : p ∈ strategy1 records) :
    ∃ nl, 2 ≤ (records.filter (fun r => decide (r.normL = nl))).length ∧
      maxByNat (fun r => r.name.length)
        (records.filter (fun r => decide (r.normL = nl))) = some p.1 ∧
      p.2 ∈ records.filter (fun r => decide (r.normL = nl)) ∧
      p.2.id ≠ p.1.id := by
  unfold strategy1 at h
  rcases List.mem_flatMap.mp h with ⟨kg, hkg, hp⟩
  have hg := groupByKey_eq_filter hkg
  unfold pairsOfGroup1 at hp
  split at hp
  · exact absurd hp (List.not_mem_nil p)
  · rename_i hlen
    split at hp
    · exact absurd hp (List.not_mem_nil p)
    · rename_i keep hkeep
      rcases List.mem_filterMap.mp hp with ⟨r, hr, hpr⟩
      split at hpr
      · rename_i hne
        have hp2 : p = (keep, r) := (Option.some_inj.mp hpr).symm
        subst hp2
        exact ⟨kg.1, by rw [← hg]; omega, by rw [← hg]; exact hkeep,
          by rw [← hg]; exact hr, hne⟩
      · exact absurd hpr (by simp)

/-- Backward construction for strategy 1. -/
theorem strategy1_mem {records : List Rec} {nl : List (List Char)} {K r : Rec}
    (hr : r ∈ records) (hnl : r.normL = nl)
    (hlen : 2 ≤ (records.filter (fun x => decide (x.normL = nl))).length)
    (hmax : maxByNat (fun x => x.name.length)
      (records.filter (fun x => decide (x.normL = nl))) = some K)
    (hne : r.id ≠ K.id) :
    (K, r) ∈ strategy1 records := by
  subst hnl
  unfold strategy1
  apply List.mem_flatMap.mpr
  refine ⟨(r.normL, records.filter (fun x => decide (x.normL = r.normL))), ?_, ?_⟩
  · have h0 := @groupByKey_mem _ _ (fun x => x.normL) _ _ hr
    simp only at h0
    exact h0
  · show (K, r) ∈ pairsOfGroup1 (records.filter (fun x => decide (x.normL = r.normL)))
    unfold pairsOfGroup1
    rw [if_neg (by omega), hmax]
    apply List.mem_filterMap.mpr
    refine ⟨r, ?_, ?_⟩
    · rw [List.mem_filter]
      exact ⟨hr, by simp⟩
    · rw [if_pos hne]

/-- Forward characterization of strategy 2 via its group. -/
theorem strategy2_shape {records : List Rec} {p : Rec × Rec}
    (h : p ∈ strategy2 records) :
    ∃ T, 2 ≤ (records.filter (fun r => decide (r.tokens = T))).length ∧
      maxByTokName (uniqNonJoint (records.filter (fun r => decide (r.tokens = T)))) =
        some p.1 ∧
      p.1 ∈ uniqNonJoint (records.filter (fun r => decide (r.tokens = T))) ∧
      p.2 ∈ uniqNonJoint (records.filter (fun r => decide (r.tokens = T))) ∧
      p.2.id ≠ p.1.id := by
  unfold strategy2 at h
  rcases List.mem_flatMap.mp h with ⟨kg, hkg, hp⟩
  have hg := groupByKey_eq_filter hkg
  have hs := pairsOfGroup2_shape hp
  refine ⟨kg.1, ?_, ?_, ?_, ?_, hs.2.2.2.2.1⟩
  · rw [← hg]; exact hs.2.2.2.2.2.2.2.2
  · rw [← hg]; exact hs.2.2.2.2.2.2.2.1
  · rw [← hg]; exact hs.2.2.2.2.2.1
  · rw [← hg]; exact hs.2.2.2.2.2.2.1

/-- Backward construction for strategy 2. -/
theorem strategy2_mem {records : List Rec} {T : List (List Char)} {K r : Rec}
    (hrrec : r ∈ records) (hrT : r.tokens = T)
    (hlen : 2 ≤ (records.filter (fun x => decide (x.tokens = T))).length)
    (hmax : maxByTokName (uniqNonJoint (records.filter (fun x => decide (x.tokens = T)))) =
      some K)
    (hru : r ∈ uniqNonJoint (records.filter (fun x => decide (x.tokens = T))))
    (hne : r.id ≠ K.id) :
    (K, r) ∈ strategy2 records := by
  subst hrT
  unfold strategy2
  apply List.mem_flatMap.mpr
  refine ⟨(r.tokens, records.filter (fun x => decide (x.tokens = r.tokens))), ?_, ?_⟩
  · have h0 := @groupByKey_mem _ _ (fun x => x.tokens) _ _ hrrec
    simp only at h0
    exact h0
  · show (K, r) ∈ pairsOfGroup2 (records.filter (fun x => decide (x.tokens = r.tokens)))
    unfold pairsOfGroup2
    rw [if_neg (by omega)]
    have hulen : 2 ≤ (uniqNonJoint (records.filter
        (fun x => decide (x.tokens = r.tokens)))).length :=
      two_mem_le_length (maxByTokName_mem hmax) hru (fun hc => hne (by rw [hc]))
    rw [if_neg (by omega), hmax]
    apply List.mem_filterMap.mpr
    exact ⟨r, hru, by rw [if_pos hne]⟩

/-- Forward characterization of strategy 2b. -/
theorem strategy2b_shape {records : List Rec} {p : Rec × Rec}
    (h : p ∈ strategy2b records) :
    ∃ T, 2 ≤ (records.filter (fun r => decide (r.aliasTokens = T))).length ∧
      maxByTokName (uniqNonJoint (records.filter (fun r => decide (r.aliasTokens = T)))) =
        some p.1 ∧
      p.1 ∈ uniqNonJoint (records.filter (fun r => decide (r.aliasTokens = T))) ∧
      p.2 ∈ uniqNonJoint (records.filter (fun r => decide (r.aliasTokens = T))) ∧
      p.2.id ≠ p.1.id := by
  unfold strategy2b at h
  rcases List.mem_flatMap.mp h with ⟨kg, hkg, hp⟩
  have hg := groupByKey_eq_filter hkg
  have hs := pairsOfGroup2_shape hp
  refine ⟨kg.1, ?_, ?_, ?_, ?_, hs.2.2.2.2.1⟩
  · rw [← hg]; exact hs.2.2.2.2.2.2.2.2
  · rw [← hg]; exact hs.2.2.2.2.2.2.2.1
  · rw [← hg]; exact hs.2.2.2.2.2.1
  · rw [← hg]; exact hs.2.2.2.2.2.2.1

/-- Backward construction for strategy 2b. -/
theorem strategy2b_mem {records : List Rec} {T : List (List Char)} {K r : Rec}
    (hrrec : r ∈ records) (hrT : r.aliasTokens = T)
    (hlen : 2 ≤ (records.filter (fun x => decide (x.aliasTokens = T))).length)
    (hmax : maxByTokName (uniqNonJoint (records.filter
      (fun x => decide (x.aliasTokens = T)))) = some K)
    (hru : r ∈ uniqNonJoint (records.filter (fun x => decide (x.aliasTokens = T))))
    (hne : r.id ≠ K.id) :
    (K, r) ∈ strategy2b records := by
  subst hrT
  unfold strategy2b
  apply List.mem_flatMap.mpr
  refine ⟨(r.aliasTokens, records.filter (fun x => decide (x.aliasTokens = r.aliasTokens))), ?_, ?_⟩
  · have h0 := @groupByKey_mem _ _ (fun x => x.aliasTokens) _ _ hrrec
    simp only at h0
    exact h0
  · show (K, r) ∈ pairsOfGroup2 (records.filter
      (fun x => decide (x.aliasTokens = r.aliasTokens)))
    unfold pairsOfGroup2
    rw [if_neg (by omega)]
    have hulen : 2 ≤ (uniqNonJoint (records.filter
        (fun x => decide (x.aliasTokens = r.aliasTokens)))).length :=
      two_mem_le_length (maxByTokName_mem hmax) hru (fun hc => hne (by rw [hc]))
    rw [if_neg (by omega), hmax]
    apply List.mem_filterMap.mpr
    exact ⟨r, hru, by rw [if_pos hne]⟩

/-! ### The surviving rows project to a filter of the input records -/

theorem set_get?_eq {α : Type} : ∀ {l : List α} {n : Nat} {a : α},
    l.get? n = some a → l.set n a = l := by
  intro l
  induction l with
  | nil => intro n a h; simp at h
  | cons x xs ih =>
    intro n a h
    rcases n with _ | n
    · have hxa : x = a := by simpa using h
      show a :: xs = x :: xs
      rw [hxa]
    · have h2 : xs.get? n = some a := by simpa using h
      show x :: xs.set n a = x :: xs
      rw [ih h2]

theorem map_set_comm {α β : Type} (f : α → β) :
    ∀ (l : List α) (n : Nat) (a : α), (l.set n a).map f = (l.map f).set n (f a) := by
  intro l
  induction l with
  | nil => intro n a; rfl
  | cons x xs ih =>
    intro n a
    rcases n with _ | n
    · rfl
    · show f x :: (xs.set n a).map f = f x :: (xs.map f).set n (f a)
      rw [ih]

theorem filterOfMap {α β : Type} (f : α → β) (p : β → Bool) :
    ∀ l : List α, (l.map f).filter p = (l.filter (fun a => p (f a))).map f := by
  intro l
  induction l with
  | nil => rfl
  | cons x xs ih =>
    by_cases h : p (f x) = true <;> simp [List.filter_cons, h, ih]

theorem filter_swap {α : Type} (p q : α → Bool) :
    ∀ l : List α, (l.filter p).filter q = (l.filter q).filter p := by
  intro l
  induction l with
  | nil => rfl
  | cons x xs ih =>
    by_cases hp : p x = true <;> by_cases hq : q x = true <;>
      simp [List.filter_cons, hp, hq, ih]

/-- The description loop leaves id, title and type of every row unchanged. -/
theorem descStep_map_proj (es cur : List Entity) (kv : String × String) :
    (descStep es cur kv).map (fun e => (e.id, e.title, e.typ)) =
      cur.map (fun e => (e.id, e.title, e.typ)) := by
  unfold descStep
  split
  · split
    · rename_i mIdx kIdx hLm hLk o1 o2 keepE mergeE hk hm
      rw [map_set_comm]
      have h1 : (cur.map (fun e => (e.id, e.title, e.typ))).get? kIdx =
          some (keepE.id, keepE.title, keepE.typ) := by
        rw [List.get?_map, hk]; rfl
      exact set_get?_eq h1
    · rfl
  · rfl

theorem applyDescMerges_map_proj (es : List Entity) (mm : List (String × String)) :
    (applyDescMerges es mm).map (fun e => (e.id, e.title, e.typ)) =
      es.map (fun e => (e.id, e.title, e.typ)) := by
  unfold applyDescMerges
  have hgen : ∀ (l : List (String × String)) (cur : List Entity),
      (l.foldl (descStep es) cur).map (fun e => (e.id, e.title, e.typ)) =
        cur.map (fun e => (e.id, e.title, e.typ)) := by
    intro l
    induction l with
    | nil => intro cur; rfl
    | cons kv t ih =>
      intro cur
      rw [List.foldl_cons, ih, descStep_map_proj]
  exact hgen mm es

/-- `recordsOf` factors through the id/title/type projection. -/
theorem recordsOf_via_proj (l : List Entity) :
    recordsOf l =
      ((l.map (fun e => (e.id, e.title, e.typ))).filter
        (fun t => isPersonType t.2.2)).map
        (fun t => Rec.mk t.1 t.2.1.data (normWordsOf t.2.1)
          (tokenSetOf (normWordsOf t.2.1)) (aliasWordsOf t.2.1)
          (tokenSetOf (aliasWordsOf t.2.1)) (isProperNoun t.2.1)
          (isJointEntity t.2.1)) := by
  rw [filterOfMap, List.map_map]
  rfl

theorem recordsOf_eq_of_proj {l l' : List Entity}
    (h : l.map (fun e => (e.id, e.title, e.typ)) =
      l'.map (fun e => (e.id, e.title, e.typ))) :
    recordsOf l = recordsOf l' := by
  rw [recordsOf_via_proj l, recordsOf_via_proj l', h]

theorem recordsOf_filter_id (l : List Entity) (q : String → Bool) :
    recordsOf (l.filter (fun e => q e.id)) = (recordsOf l).filter (fun r => q r.id) := by
  unfold recordsOf
  rw [filterOfMap, filter_swap]
  rfl

/-- The person records of the surviving rows are exactly the input person
records whose id is not a merge-map key. -/
theorem recordsOf_surviving (es : List Entity) (pairs : List (String × String)) :
    recordsOf (survivingEntities es pairs) =
      (recordsOf es).filter
        (fun r => decide (r.id ∉ (buildMergeMap pairs).map (fun kv => kv.1))) := by
  unfold survivingEntities
  exact (recordsOf_filter_id (applyDescMerges es (buildMergeMap pairs))
      (fun s => decide (s ∉ (buildMergeMap pairs).map (fun kv => kv.1)))).trans
    (by rw [recordsOf_eq_of_proj (applyDescMerges_map_proj es (buildMergeMap pairs))])

/-- Distinct input ids give distinct record ids. -/
theorem recordsOf_id_nodup {es : List Entity}
    (h : (es.map (fun e => e.id)).Nodup) :
    ((recordsOf es).map (fun r => r.id)).Nodup := by
  unfold recordsOf
  rw [List.map_map]
  have hsub : ((es.filter (fun e => isPersonType e.typ)).map (fun e => e.id)).Sublist
      (es.map (fun e => e.id)) := (List.filter_sublist es).map _
  exact h.sublist hsub

/-- Every record's token set is determined by its normalized word list. -/
theorem recordsOf_tokens_normL {es : List Entity} {r : Rec}
    (h : r ∈ recordsOf es) : r.tokens = tokenSetOf r.normL := by
  unfold recordsOf at h
  rcases List.mem_map.mp h with ⟨e, _, he⟩
  rw [← he]
  rfl

/-! ### Orientation of the deduplicated group-strategy proposals -/

theorem strategy1_comp {rs : List Rec} {q : Rec × Rec} (h : q ∈ strategy1 rs) :
    q.1 ∈ rs ∧ q.2 ∈ rs := by
  rcases strategy1_shape h with ⟨nl, _, hmax, hq2, _⟩
  exact ⟨(List.mem_filter.mp (maxByNat_mem hmax)).1, (List.mem_filter.mp hq2).1⟩

theorem strategy2_comp {rs : List Rec} {q : Rec × Rec} (h : q ∈ strategy2 rs) :
    q.1 ∈ rs ∧ q.2 ∈ rs := by
  rcases strategy2_shape h with ⟨T, _, _, hu1, hu2, _⟩
  exact ⟨(List.mem_filter.mp (mem_uniqNonJoint hu1).1).1,
    (List.mem_filter.mp (mem_uniqNonJoint hu2).1).1⟩

theorem strategy2b_comp {rs : List Rec} {q : Rec × Rec} (h : q ∈ strategy2b rs) :
    q.1 ∈ rs ∧ q.2 ∈ rs := by
  rcases strategy2b_shape h with ⟨T, _, _, hu1, hu2, _⟩
  exact ⟨(List.mem_filter.mp (mem_uniqNonJoint hu1).1).1,
    (List.mem_filter.mp (mem_uniqNonJoint hu2).1).1⟩

/-- No two strategy-1 proposals are mutual reversals: the keep side of a
normalized-name group is unique. -/
theorem strategy1_orient {rs : List Rec} {q q' : Rec × Rec}
    (h : q ∈ strategy1 rs) (h' : q' ∈ strategy1 rs)
    (e1 : q'.1 = q.2) (e2 : q'.2 = q.1) : False := by
  rcases strategy1_shape h with ⟨nl, _, hmax, hq2, hne⟩
  rcases strategy1_shape h' with ⟨nl', _, hmax', hq2', _⟩
  have hq'1mem := maxByNat_mem hmax'
  have ha : q.2.normL = nl := by simpa using (List.mem_filter.mp hq2).2
  have hb : q.2.normL = nl' := by
    rw [← e1]; simpa using (List.mem_filter.mp hq'1mem).2
  have hnl : nl = nl' := ha.symm.trans hb
  rw [← hnl] at hmax'
  have heq : q.1 = q'.1 := Option.some_inj.mp (hmax.symm.trans hmax')
  exact hne (congrArg Rec.id (e1.symm.trans heq.symm))

/-- No two strategy-2 proposals are mutual reversals. -/
theorem strategy2_orient {rs : List Rec} {q q' : Rec × Rec}
    (h : q ∈ strategy2 rs) (h' : q' ∈ strategy2 rs)
    (e1 : q'.1 = q.2) (e2 : q'.2 = q.1) : False := by
  rcases strategy2_shape h with ⟨T, _, hmax, _, hu2, hne⟩
  rcases strategy2_shape h' with ⟨T', _, hmax', hu1', _, _⟩
  have ha : q.2.tokens = T := by
    simpa using (List.mem_filter.mp (mem_uniqNonJoint hu2).1).2
  have hb : q.2.tokens = T' := by
    rw [← e1]
    simpa using (List.mem_filter.mp (mem_uniqNonJoint (maxByTokName_mem hmax')).1).2
  have hT : T = T' := ha.symm.trans hb
  rw [← hT] at hmax'
  have heq : q.1 = q'.1 := Option.some_inj.mp (hmax.symm.trans hmax')
  exact hne (congrArg Rec.id (e1.symm.trans heq.symm))

/-- No two strategy-2b proposals are mutual reversals. -/
theorem strategy2b_orient {rs : List Rec} {q q' : Rec × Rec}
    (h : q ∈ strategy2b rs) (h' : q' ∈ strategy2b rs)
    (e1 : q'.1 = q.2) (e2 : q'.2 = q.1) : False := by
  rcases strategy2b_shape h with ⟨T, _, hmax, _, hu2, hne⟩
  rcases strategy2b_shape h' with ⟨T', _, hmax', hu1', _, _⟩
  have ha : q.2.aliasTokens = T := by
    simpa using (List.mem_filter.mp (mem_uniqNonJoint hu2).1).2
  have hb : q.2.aliasTokens = T' := by
    rw [← e1]
    simpa using (List.mem_filter.mp (mem_uniqNonJoint (maxByTokName_mem hmax')).1).2
  have hT : T = T' := ha.symm.trans hb
  rw [← hT] at hmax'
  have heq : q.1 = q'.1 := Option.some_inj.mp (hmax.symm.trans hmax')
  exact hne (congrArg Rec.id (e1.symm.trans heq.symm))

/-- Any raw proposal puts one of its two endpoint ids into the merge-map
keys: the pair survives the orientation dedup in some direction. -/
theorem rawProposals_kill {rs : List Rec} {q : Rec × Rec}
    (h : q ∈ rawProposals rs) :
    q.1.id ∈ mergeKeysOf rs ∨ q.2.id ∈ mergeKeysOf rs := by
  have hm : ((q.1.id : String), q.2.id) ∈
      (rawProposals rs).map (fun p => (p.1.id, p.2.id)) :=
    List.mem_map_of_mem _ h
  rcases dedupPairs_or hm with h1 | h1
  · exact Or.inr (mem_keys_buildMergeMap h1)
  · exact Or.inl (mem_keys_buildMergeMap h1)

/-- A strategy-1 proposal always survives the dedup in its own orientation:
its merge side is a merge-map key. -/
theorem strategy1_kill {rs : List Rec} {q : Rec × Rec}
    (hIds : (rs.map (fun r => r.id)).Nodup) (h : q ∈ strategy1 rs) :
    q.2.id ∈ mergeKeysOf rs := by
  have hcomp := strategy1_comp h
  have hmem : ((q.1.id : String), q.2.id) ∈
      (strategy1 rs).map (fun p => (p.1.id, p.2.id)) :=
    List.mem_map_of_mem _ h
  have hrev : ((q.2.id : String), q.1.id) ∉
      (strategy1 rs).map (fun p => (p.1.id, p.2.id)) := by
    intro hc
    rcases List.mem_map.mp hc with ⟨q', hq', hqq⟩
    have h1 : q'.1.id = q.2.id := congrArg Prod.fst hqq
    have h2 : q'.2.id = q.1.id := congrArg Prod.snd hqq
    have hcomp' := strategy1_comp hq'
    exact strategy1_orient h hq'
      (List.inj_on_of_nodup_map hIds hcomp'.1 hcomp.2 h1)
      (List.inj_on_of_nodup_map hIds hcomp'.2 hcomp.1 h2)
  have hsplit : (rawProposals rs).map (fun p => (p.1.id, p.2.id)) =
      (strategy1 rs).map (fun p => (p.1.id, p.2.id)) ++
      (strategy2 rs ++ strategy2b rs ++ strategy3 (ambiguousLastnames rs) rs ++
        strategy3b rs ++ strategy4 rs).map (fun p => (p.1.id, p.2.id)) := by
    unfold rawProposals
    rw [← List.map_append]
    simp [List.append_assoc]
  have hded : ((q.1.id : String), q.2.id) ∈
      dedupPairs ((rawProposals rs).map (fun p => (p.1.id, p.2.id))) := by
    rw [hsplit]
    exact dedupPairs_prefix_mem hmem hrev
  exact mem_keys_buildMergeMap hded

/-- A strategy-2 proposal either kills its merge side or its reversal was
already proposed by strategy 1. -/
theorem strategy2_escape {rs : List Rec} {q : Rec × Rec}
    (hIds : (rs.map (fun r => r.id)).Nodup) (h : q ∈ strategy2 rs) :
    q.2.id ∈ mergeKeysOf rs ∨ (q.2, q.1) ∈ strategy1 rs := by
  have hcomp := strategy2_comp h
  by_cases hS1 : (q.2, q.1) ∈ strategy1 rs
  · exact Or.inr hS1
  · left
    have hmem : ((q.1.id : String), q.2.id) ∈
        (strategy1 rs ++ strategy2 rs).map (fun p => (p.1.id, p.2.id)) :=
      List.mem_map_of_mem _ (List.mem_append.mpr (Or.inr h))
    have hrev : ((q.2.id : String), q.1.id) ∉
        (strategy1 rs ++ strategy2 rs).map (fun p => (p.1.id, p.2.id)) := by
      intro hc
      rcases List.mem_map.mp hc with ⟨q', hq', hqq⟩
      have h1 : q'.1.id = q.2.id := congrArg Prod.fst hqq
      have h2 : q'.2.id = q.1.id := congrArg Prod.snd hqq
      rcases List.mem_append.mp hq' with hqa | hqb
      · have hcomp' := strategy1_comp hqa
        have e1 : q'.1 = q.2 := List.inj_on_of_nodup_map hIds hcomp'.1 hcomp.2 h1
        have e2 : q'.2 = q.1 := List.inj_on_of_nodup_map hIds hcomp'.2 hcomp.1 h2
        apply hS1
        have hqe : (q.2, q.1) = q' := by rw [← e1, ← e2]
        rw [hqe]
        exact hqa
      · have hcomp' := strategy2_comp hqb
        exact strategy2_orient h hqb
          (List.inj_on_of_nodup_map hIds hcomp'.1 hcomp.2 h1)
          (List.inj_on_of_nodup_map hIds hcomp'.2 hcomp.1 h2)
    have hsplit : (rawProposals rs).map (fun p => (p.1.id, p.2.id)) =
        (strategy1 rs ++ strategy2 rs).map (fun p => (p.1.id, p.2.id)) ++
        (strategy2b rs ++ strategy3 (ambiguousLastnames rs) rs ++ strategy3b rs ++
          strategy4 rs).map (fun p => (p.1.id, p.2.id)) := by
      unfold rawProposals
      rw [← List.map_append]
      simp [List.append_assoc]
    have hded : ((q.1.id : String), q.2.id) ∈
        dedupPairs ((rawProposals rs).map (fun p => (p.1.id, p.2.id))) := by
      rw [hsplit]
      exact dedupPairs_prefix_mem hmem hrev
    exact mem_keys_buildMergeMap hded

/-- A strategy-2b proposal either kills its merge side or its reversal was
already proposed by strategy 1 or strategy 2. -/
theorem strategy2b_escape {rs : List Rec} {q : Rec × Rec}
    (hIds : (rs.map (fun r => r.id)).Nodup) (h : q ∈ strategy2b rs) :
    q.2.id ∈ mergeKeysOf rs ∨ (q.2, q.1) ∈ strategy1 rs ∨
      (q.2, q.1) ∈ strategy2 rs := by
  have hcomp := strategy2b_comp h
  by_cases hS1 : (q.2, q.1) ∈ strategy1 rs
  · exact Or.inr (Or.inl hS1)
  by_cases hS2 : (q.2, q.1) ∈ strategy2 rs
  · exact Or.inr (Or.inr hS2)
  left
  have hmem : ((q.1.id : String), q.2.id) ∈
      (strategy1 rs ++ strategy2 rs ++ strategy2b rs).map
        (fun p => (p.1.id, p.2.id)) :=
    List.mem_map_of_mem _ (List.mem_append.mpr (Or.inr h))
  have hrev : ((q.2.id : String), q.1.id) ∉
      (strategy1 rs ++ strategy2 rs ++ strategy2b rs).map
        (fun p => (p.1.id, p.2.id)) := by
    intro hc
    rcases List.mem_map.mp hc with ⟨q', hq', hqq⟩
    have h1 : q'.1.id = q.2.id := congrArg Prod.fst hqq
    have h2 : q'.2.id = q.1.id := congrArg Prod.snd hqq
    rcases List.mem_append.mp hq' with hqab | hqc
    · rcases List.mem_append.mp hqab with hqa | hqb
      · have hcomp' := strategy1_comp hqa
        have e1 : q'.1 = q.2 := List.inj_on_of_nodup_map hIds hcomp'.1 hcomp.2 h1
        have e2 : q'.2 = q.1 := List.inj_on_of_nodup_map hIds hcomp'.2 hcomp.1 h2
        apply hS1
        have hqe : (q.2, q.1) = q' := by rw [← e1, ← e2]
        rw [hqe]
        exact hqa
      · have hcomp' := strategy2_comp hqb
        have e1 : q'.1 = q.2 := List.inj_on_of_nodup_map hIds hcomp'.1 hcomp.2 h1
        have e2 : q'.2 = q.1 := List.inj_on_of_nodup_map hIds hcomp'.2 hcomp.1 h2
        apply hS2
        have hqe : (q.2, q.1) = q' := by rw [← e1, ← e2]
        rw [hqe]
        exact hqb
    · have hcomp' := strategy2b_comp hqc
      exact strategy2b_orient h hqc
        (List.inj_on_of_nodup_map hIds hcomp'.1 hcomp.2 h1)
        (List.inj_on_of_nodup_map hIds hcomp'.2 hcomp.1 h2)
  have hsplit : (rawProposals rs).map (fun p => (p.1.id, p.2.id)) =
      (strategy1 rs ++ strategy2 rs ++ strategy2b rs).map
        (fun p => (p.1.id, p.2.id)) ++
      (strategy3 (ambiguousLastnames rs) rs ++ strategy3b rs ++
        strategy4 rs).map (fun p => (p.1.id, p.2.id)) := by
    unfold rawProposals
    rw [← List.map_append]
    simp [List.append_assoc]
  have hded : ((q.1.id : String), q.2.id) ∈
      dedupPairs ((rawProposals rs).map (fun p => (p.1.id, p.2.id))) := by
    rw [hsplit]
    exact dedupPairs_prefix_mem hmem hrev
  exact mem_keys_buildMergeMap hded

/-- With duplicate-free ids, the `uniqNonJoint` comprehension is just the
non-joint filter. -/
theorem uniqNonJoint_of_nodup {g : List Rec}
    (h : (g.map (fun r => r.id)).Nodup) :
    uniqNonJoint g = g.filter (fun r => ¬ r.isJoint) := by
  unfold uniqNonJoint
  apply uniqById_of_nodup
  exact h.sublist ((List.filter_sublist g).map _)

/-! ### No two distinct surviving records share a grouping key -/

/-- Survivors of one pass never share a normalized name (MAIN-A). -/
theorem survivors_normL_unique {rs : List Rec}
    (hIds : (rs.map (fun r => r.id)).Nodup) {a b : Rec}
    (ha : a ∈ survRecs rs) (hb : b ∈ survRecs rs) (hnl : a.normL = b.normL) :
    a.id = b.id := by
  by_contra hne
  have ha1 : a ∈ rs := (List.mem_filter.mp ha).1
  have hb1 : b ∈ rs := (List.mem_filter.mp hb).1
  have haK : a.id ∉ mergeKeysOf rs := by simpa using (List.mem_filter.mp ha).2
  have hbK : b.id ∉ mergeKeysOf rs := by simpa using (List.mem_filter.mp hb).2
  have hab : a ≠ b := fun hc => hne (congrArg Rec.id hc)
  have hag : a ∈ rs.filter (fun r => decide (r.normL = a.normL)) :=
    List.mem_filter.mpr ⟨ha1, by simp⟩
  have hbg : b ∈ rs.filter (fun r => decide (r.normL = a.normL)) :=
    List.mem_filter.mpr ⟨hb1, by simpa using hnl.symm⟩
  have hlen : 2 ≤ (rs.filter (fun r => decide (r.normL = a.normL))).length :=
    two_mem_le_length hag hbg hab
  obtain ⟨K, hK⟩ : ∃ K, maxByNat (fun r => r.name.length)
      (rs.filter (fun r => decide (r.normL = a.normL))) = some K := by
    rcases hgl : rs.filter (fun r => decide (r.normL = a.normL)) with _ | ⟨x, xs⟩
    · rw [hgl] at hag; exact absurd hag (List.not_mem_nil a)
    · rw [hgl]; exact ⟨_, rfl⟩
  have hkill : ∀ x, x ∈ rs → x.normL = a.normL → x.id ∉ mergeKeysOf rs →
      x.id ≠ K.id → False := by
    intro x hx hxnl hxK hxne
    have hs1 : (K, x) ∈ strategy1 rs := strategy1_mem hx hxnl hlen hK hxne
    exact hxK (strategy1_kill hIds hs1)
  by_cases haK' : a.id = K.id
  · exact hkill b hb1 hnl.symm hbK (fun hc => hne (haK'.trans hc.symm))
  · exact hkill a ha1 rfl haK haK'

/-- Non-joint survivors of one pass never share a token set (MAIN-B). -/
theorem survivors_tokens_unique {rs : List Rec}
    (hIds : (rs.map (fun r => r.id)).Nodup) {a b : Rec}
    (ha : a ∈ survRecs rs) (hb : b ∈ survRecs rs)
    (hja : a.isJoint = false) (hjb : b.isJoint = false)
    (ht : a.tokens = b.tokens) : a.id = b.id := by
  by_contra hne
  have ha1 : a ∈ rs := (List.mem_filter.mp ha).1
  have hb1 : b ∈ rs := (List.mem_filter.mp hb).1
  have haK : a.id ∉ mergeKeysOf rs := by simpa using (List.mem_filter.mp ha).2
  have hbK : b.id ∉ mergeKeysOf rs := by simpa using (List.mem_filter.mp hb).2
  have hab : a ≠ b := fun hc => hne (congrArg Rec.id hc)
  have hag : a ∈ rs.filter (fun r => decide (r.tokens = a.tokens)) :=
    List.mem_filter.mpr ⟨ha1, by simp⟩
  have hbg : b ∈ rs.filter (fun r => decide (r.tokens = a.tokens)) :=
    List.mem_filter.mpr ⟨hb1, by simpa using ht.symm⟩
  have hlen : 2 ≤ (rs.filter (fun r => decide (r.tokens = a.tokens))).length :=
    two_mem_le_length hag hbg hab
  have hgn : ((rs.filter (fun r => decide (r.tokens = a.tokens))).map
      (fun r => r.id)).Nodup :=
    hIds.sublist ((List.filter_sublist rs).map _)
  have hUNJ := uniqNonJoint_of_nodup hgn
  have hau : a ∈ uniqNonJoint (rs.filter (fun r => decide (r.tokens = a.tokens))) := by
    rw [hUNJ]; exact List.mem_filter.mpr ⟨hag, by simp [hja]⟩
  have hbu : b ∈ uniqNonJoint (rs.filter (fun r => decide (r.tokens = a.tokens))) := by
    rw [hUNJ]; exact List.mem_filter.mpr ⟨hbg, by simp [hjb]⟩
  obtain ⟨K, hK⟩ : ∃ K, maxByTokName
      (uniqNonJoint (rs.filter (fun r => decide (r.tokens = a.tokens)))) = some K := by
    rcases hgl : uniqNonJoint (rs.filter (fun r => decide (r.tokens = a.tokens)))
        with _ | ⟨x, xs⟩
    · rw [hgl] at hau; exact absurd hau (List.not_mem_nil a)
    · exact ⟨_, rfl⟩
  have hKrs : K ∈ rs :=
    (List.mem_filter.mp (mem_uniqNonJoint (maxByTokName_mem hK)).1).1
  have hesc : ∀ x, x ∈ rs →
      x ∈ uniqNonJoint (rs.filter (fun r => decide (r.tokens = a.tokens))) →
      x.tokens = a.tokens → x.id ∉ mergeKeysOf rs → x.id ≠ K.id →
      x.normL = K.normL := by
    intro x hx hxu hxt hxK hxne
    have hs2 : (K, x) ∈ strategy2 rs := strategy2_mem hx hxt hlen hK hxu hxne
    rcases strategy2_escape hIds hs2 with hkill | hS1
    · exact absurd hkill hxK
    · have hS1' : (x, K) ∈ strategy1 rs := hS1
      rcases strategy1_shape hS1' with ⟨nl, _, hmax, hKg, _⟩
      have h1 : x.normL = nl := by
        simpa using (List.mem_filter.mp (maxByNat_mem hmax)).2
      have h2 : K.normL = nl := by simpa using (List.mem_filter.mp hKg).2
      exact h1.trans h2.symm
  have hy : ∀ y, y ∈ rs →
      y ∈ uniqNonJoint (rs.filter (fun r => decide (r.tokens = a.tokens))) →
      y.tokens = a.tokens → y.id ∉ mergeKeysOf rs → y.normL = K.normL := by
    intro y h1 h2 h3 h4
    by_cases hyK : y.id = K.id
    · rw [List.inj_on_of_nodup_map hIds h1 hKrs hyK]
    · exact hesc y h1 h2 h3 h4 hyK
  have hna := hy a ha1 hau rfl haK
  have hnb := hy b hb1 hbu ht.symm hbK
  exact hne (survivors_normL_unique hIds ha hb (hna.trans hnb.symm))

/-- Non-joint survivors of one pass never share an alias token set
(MAIN-C). -/
theorem survivors_alias_unique {rs : List Rec}
    (hIds : (rs.map (fun r => r.id)).Nodup)
    (hTok : ∀ r ∈ rs, r.tokens = tokenSetOf r.normL) {a b : Rec}
    (ha : a ∈ survRecs rs) (hb : b ∈ survRecs rs)
    (hja : a.isJoint = false) (hjb : b.isJoint = false)
    (hal : a.aliasTokens = b.aliasTokens) : a.id = b.id := by
  by_contra hne
  have ha1 : a ∈ rs := (List.mem_filter.mp ha).1
  have hb1 : b ∈ rs := (List.mem_filter.mp hb).1
  have haK : a.id ∉ mergeKeysOf rs := by simpa using (List.mem_filter.mp ha).2
  have hbK : b.id ∉ mergeKeysOf rs := by simpa using (List.mem_filter.mp hb).2
  have hab : a ≠ b := fun hc => hne (congrArg Rec.id hc)
  have hag : a ∈ rs.filter (fun r => decide (r.aliasTokens = a.aliasTokens)) :=
    List.mem_filter.mpr ⟨ha1, by simp⟩
  have hbg : b ∈ rs.filter (fun r => decide (r.aliasTokens = a.aliasTokens)) :=
    List.mem_filter.mpr ⟨hb1, by simpa using hal.symm⟩
  have hlen : 2 ≤ (rs.filter (fun r => decide (r.aliasTokens = a.aliasTokens))).length :=
    two_mem_le_length hag hbg hab
  have hgn : ((rs.filter (fun r => decide (r.aliasTokens = a.aliasTokens))).map
      (fun r => r.id)).Nodup :=
    hIds.sublist ((List.filter_sublist rs).map _)
  have hUNJ := uniqNonJoint_of_nodup hgn
  have hau : a ∈ uniqNonJoint
      (rs.filter (fun r => decide (r.aliasTokens = a.aliasTokens))) := by
    rw [hUNJ]; exact List.mem_filter.mpr ⟨hag, by simp [hja]⟩
  have hbu : b ∈ uniqNonJoint
      (rs.filter (fun r => decide (r.aliasTokens = a.aliasTokens))) := by
    rw [hUNJ]; exact List.mem_filter.mpr ⟨hbg, by simp [hjb]⟩
  obtain ⟨K, hK⟩ : ∃ K, maxByTokName
      (uniqNonJoint (rs.filter (fun r => decide (r.aliasTokens = a.aliasTokens)))) =
        some K := by
    rcases hgl : uniqNonJoint (rs.filter (fun r => decide (r.aliasTokens = a.aliasTokens)))
        with _ | ⟨x, xs⟩
    · rw [hgl] at hau; exact absurd hau (List.not_mem_nil a)
    · exact ⟨_, rfl⟩
  have hKrs : K ∈ rs :=
    (List.mem_filter.mp (mem_uniqNonJoint (maxByTokName_mem hK)).1).1
  have hesc : ∀ x, x ∈ rs →
      x ∈ uniqNonJoint (rs.filter (fun r => decide (r.aliasTokens = a.aliasTokens))) →
      x.aliasTokens = a.aliasTokens → x.id ∉ mergeKeysOf rs → x.id ≠ K.id →
      x.tokens = K.tokens := by
    intro x hx hxu hxt hxK hxne
    have hs2b : (K, x) ∈ strategy2b rs := strategy2b_mem hx hxt hlen hK hxu hxne
    rcases strategy2b_escape hIds hs2b with hkill | hS1 | hS2
    · exact absurd hkill hxK
    · have hS1' : (x, K) ∈ strategy1 rs := hS1
      rcases strategy1_shape hS1' with ⟨nl, _, hmax, hKg, _⟩
      have h1 : x.normL = nl := by
        simpa using (List.mem_filter.mp (maxByNat_mem hmax)).2
      have h2 : K.normL = nl := by simpa using (List.mem_filter.mp hKg).2
      rw [hTok x hx, hTok K hKrs, h1, h2]
    · have hS2' : (x, K) ∈ strategy2 rs := hS2
      rcases strategy2_shape hS2' with ⟨T, _, hmax, _, hu2, _⟩
      have h1 : x.tokens = T := by
        simpa using (List.mem_filter.mp (mem_uniqNonJoint (maxByTokName_mem hmax)).1).2
      have h2 : K.tokens = T := by
        simpa using (List.mem_filter.mp (mem_uniqNonJoint hu2).1).2
      exact h1.trans h2.symm
  have hy : ∀ y, y ∈ rs →
      y ∈ uniqNonJoint (rs.filter (fun r => decide (r.aliasTokens = a.aliasTokens))) →
      y.aliasTokens = a.aliasTokens → y.id ∉ mergeKeysOf rs →
      y.tokens = K.tokens := by
    intro y h1 h2 h3 h4
    by_cases hyK : y.id = K.id
    · rw [List.inj_on_of_nodup_map hIds h1 hKrs hyK]
    · exact hesc y h1 h2 h3 h4 hyK
  have hta := hy a ha1 hau rfl haK
  have htb := hy b hb1 hbu hal.symm hbK
  exact hne (survivors_tokens_unique hIds ha hb hja hjb (hta.trans htb.symm))

/-! ### Subset strategies: forward and backward characterizations -/

/-- Every strategy-3 proposal comes from a multi-token non-joint source and
a non-joint strict superset target. -/
theorem strategy3_shape {ambig : List (List Char)} {records : List Rec}
    {p : Rec × Rec} (h : p ∈ strategy3 ambig records) :
    ∃ r other, r ∈ records ∧ other ∈ records ∧ 2 ≤ r.tokens.length ∧
      r.isJoint = false ∧ other.isJoint = false ∧
      tokStrictSubset r.tokens other.tokens = true ∧ p = pickKeep other r := by
  unfold strategy3 at h
  rcases List.mem_flatMap.mp h with ⟨ir, hir, hp⟩
  by_cases h1 : ir.2.tokens.length < 2
  · rw [if_pos h1] at hp; exact absurd hp (List.not_mem_nil p)
  · rw [if_neg h1] at hp
    by_cases h2 : ir.2.isJoint = true
    · rw [if_pos h2] at hp; exact absurd hp (List.not_mem_nil p)
    · rw [if_neg h2] at hp
      rcases List.mem_flatMap.mp hp with ⟨j, _, hpj⟩
      by_cases h3 : j = ir.1
      · rw [if_pos h3] at hpj; exact absurd hpj (List.not_mem_nil p)
      · rw [if_neg h3] at hpj
        rcases hget : records.get? j with _ | other
        · rw [hget] at hpj; simp only at hpj
          exact absurd hpj (List.not_mem_nil p)
        · rw [hget] at hpj; simp only at hpj
          rcases subsetPair_shape hpj with ⟨hoj, hss, hpk⟩
          have hr : records.get? ir.1 = some ir.2 := List.mem_enum_iff_get?.mp hir
          exact ⟨ir.2, other, List.get?_mem hr, List.get?_mem hget, by omega,
            by simpa using h2, hoj, hss, hpk⟩

/-- Conversely, two indexed records with the subset guards yield the
strategy-3 proposal, for any ambiguity set. -/
theorem strategy3_mem {ambig : List (List Char)} {records : List Rec}
    {i j : Nat} {r other : Rec}
    (hi : records.get? i = some r) (hj : records.get? j = some other)
    (hij : j ≠ i) (hlen : 2 ≤ r.tokens.length) (hrj : r.isJoint = false)
    (hoj : other.isJoint = false)
    (hss : tokStrictSubset r.tokens other.tokens = true) :
    pickKeep other r ∈ strategy3 ambig records := by
  have hsub : tokSubset r.tokens other.tokens = true := by
    have h2 := hss
    simp only [tokStrictSubset, decide_eq_true_eq] at h2
    exact h2.1
  unfold strategy3
  apply List.mem_flatMap.mpr
  refine ⟨(i, r), List.mem_enum_iff_get?.mpr hi, ?_⟩
  show pickKeep other r ∈
    (if r.tokens.length < 2 then []
     else if r.isJoint then []
     else (candidateIdx records r.tokens).flatMap (fun j2 =>
       if j2 = i then []
       else match records.get? j2 with
         | none => []
         | some o => subsetPair ambig r o))
  rw [if_neg (by omega), if_neg (by simp [hrj])]
  apply List.mem_flatMap.mpr
  refine ⟨j, ?_, ?_⟩
  · unfold candidateIdx
    apply List.mem_map.mpr
    refine ⟨(j, other), List.mem_filter.mpr ⟨List.mem_enum_iff_get?.mpr hj, ?_⟩, rfl⟩
    show tokSubset r.tokens other.tokens = true
    exact hsub
  · rw [if_neg hij, hj]
    simp only
    unfold subsetPair
    rw [if_neg (by simp [hoj]), if_pos hss, if_neg (by omega : ¬ r.tokens.length = 1)]
    exact List.mem_singleton_self _

/-- Every strategy-3b proposal comes from a multi-alias-token non-joint
source and a non-joint strict alias superset target. -/
theorem strategy3b_shape {records : List Rec} {p : Rec × Rec}
    (h : p ∈ strategy3b records) :
    ∃ r other, r ∈ records ∧ other ∈ records ∧ 2 ≤ r.aliasTokens.length ∧
      r.isJoint = false ∧ other.isJoint = false ∧
      tokStrictSubset r.aliasTokens other.aliasTokens = true ∧
      p = pickKeep other r := by
  unfold strategy3b at h
  rcases List.mem_flatMap.mp h with ⟨ir, hir, hp⟩
  by_cases h1 : ir.2.aliasTokens.length < 2 ∨ ir.2.isJoint = true
  · rw [if_pos h1] at hp; exact absurd hp (List.not_mem_nil p)
  · rw [if_neg h1] at hp
    rcases not_or.mp h1 with ⟨h1a, h1b⟩
    rcases List.mem_flatMap.mp hp with ⟨j, _, hpj⟩
    by_cases h3 : j = ir.1
    · rw [if_pos h3] at hpj; exact absurd hpj (List.not_mem_nil p)
    · rw [if_neg h3] at hpj
      rcases hget : records.get? j with _ | other
      · rw [hget] at hpj; simp only at hpj
        exact absurd hpj (List.not_mem_nil p)
      · rw [hget] at hpj; simp only at hpj
        rcases subsetPairAlias_shape hpj with ⟨hoj, hss, hpk⟩
        have hr : records.get? ir.1 = some ir.2 := List.mem_enum_iff_get?.mp hir
        exact ⟨ir.2, other, List.get?_mem hr, List.get?_mem hget, by omega,
          by simpa using h1b, hoj, hss, hpk⟩

/-- Backward construction for strategy 3b. -/
theorem strategy3b_mem {records : List Rec} {i j : Nat} {r other : Rec}
    (hi : records.get? i = some r) (hj : records.get? j = some other)
    (hij : j ≠ i) (hlen : 2 ≤ r.aliasTokens.length) (hrj : r.isJoint = false)
    (hoj : other.isJoint = false)
    (hss : tokStrictSubset r.aliasTokens other.aliasTokens = true) :
    pickKeep other r ∈ strategy3b records := by
  have hsub : tokSubset r.aliasTokens other.aliasTokens = true := by
    have h2 := hss
    simp only [tokStrictSubset, decide_eq_true_eq] at h2
    exact h2.1
  unfold strategy3b
  apply List.mem_flatMap.mpr
  refine ⟨(i, r), List.mem_enum_iff_get?.mpr hi, ?_⟩
  show pickKeep other r ∈
    (if r.aliasTokens.length < 2 ∨ r.isJoint then []
     else (candidateIdxAlias records r.aliasTokens).flatMap (fun j2 =>
       if j2 = i then []
       else match records.get? j2 with
         | none => []
         | some o => subsetPairAlias r o))
  rw [if_neg (by simp [hrj]; omega)]
  apply List.mem_flatMap.mpr
  refine ⟨j, ?_, ?_⟩
  · unfold candidateIdxAlias
    apply List.mem_map.mpr
    refine ⟨(j, other), List.mem_filter.mpr ⟨List.mem_enum_iff_get?.mpr hj, ?_⟩, rfl⟩
    show tokSubset r.aliasTokens other.aliasTokens = true
    exact hsub
  · rw [if_neg hij, hj]
    simp only
    unfold subsetPairAlias
    rw [if_neg (by simp [hoj]), if_pos hss,
      if_neg (by omega : ¬ r.aliasTokens.length = 1)]
    exact List.mem_singleton_self _

/-! ### The second pass proposes nothing: group and subset strategies -/

theorem strategy1_survivors_nil {rs : List Rec}
    (hIds : (rs.map (fun r => r.id)).Nodup) :
    strategy1 (survRecs rs) = [] := by
  rw [List.eq_nil_iff_forall_not_mem]
  intro p hp
  rcases strategy1_shape hp with ⟨nl, _, hmax, hp2, hne⟩
  have hp1 := maxByNat_mem hmax
  have h1 : p.1 ∈ survRecs rs := (List.mem_filter.mp hp1).1
  have h2 : p.2 ∈ survRecs rs := (List.mem_filter.mp hp2).1
  have hn1 : p.1.normL = nl := by simpa using (List.mem_filter.mp hp1).2
  have hn2 : p.2.normL = nl := by simpa using (List.mem_filter.mp hp2).2
  exact hne (survivors_normL_unique hIds h2 h1 (hn2.trans hn1.symm))

theorem strategy2_survivors_nil {rs : List Rec}
    (hIds : (rs.map (fun r => r.id)).Nodup) :
    strategy2 (survRecs rs) = [] := by
  rw [List.eq_nil_iff_forall_not_mem]
  intro p hp
  rcases strategy2_shape hp with ⟨T, _, _, hu1, hu2, hne⟩
  have hm1 := mem_uniqNonJoint hu1
  have hm2 := mem_uniqNonJoint hu2
  have h1 : p.1 ∈ survRecs rs := (List.mem_filter.mp hm1.1).1
  have h2 : p.2 ∈ survRecs rs := (List.mem_filter.mp hm2.1).1
  have hn1 : p.1.tokens = T := by simpa using (List.mem_filter.mp hm1.1).2
  have hn2 : p.2.tokens = T := by simpa using (List.mem_filter.mp hm2.1).2
  exact hne (survivors_tokens_unique hIds h2 h1 hm2.2 hm1.2 (hn2.trans hn1.symm))

theorem strategy2b_survivors_nil {rs : List Rec}
    (hIds : (rs.map (fun r => r.id)).Nodup)
    (hTok : ∀ r ∈ rs, r.tokens = tokenSetOf r.normL) :
    strategy2b (survRecs rs) = [] := by
  rw [List.eq_nil_iff_forall_not_mem]
  intro p hp
  rcases strategy2b_shape hp with ⟨T, _, _, hu1, hu2, hne⟩
  have hm1 := mem_uniqNonJoint hu1
  have hm2 := mem_uniqNonJoint hu2
  have h1 : p.1 ∈ survRecs rs := (List.mem_filter.mp hm1.1).1
  have h2 : p.2 ∈ survRecs rs := (List.mem_filter.mp hm2.1).1
  have hn1 : p.1.aliasTokens = T := by simpa using (List.mem_filter.mp hm1.1).2
  have hn2 : p.2.aliasTokens = T := by simpa using (List.mem_filter.mp hm2.1).2
  exact hne (survivors_alias_unique hIds hTok h2 h1 hm2.2 hm1.2 (hn2.trans hn1.symm))

theorem strategy3_survivors_nil {rs : List Rec} {ambig : List (List Char)} :
    strategy3 ambig (survRecs rs) = [] := by
  rw [List.eq_nil_iff_forall_not_mem]
  intro p hp
  rcases strategy3_shape hp with ⟨r, other, hr, ho, hlen, hrj, hoj, hss, _⟩
  have hrne : r ≠ other := by
    intro hc
    have h2 := hss
    simp only [tokStrictSubset, decide_eq_true_eq] at h2
    rw [hc] at h2
    exact h2.2 h2.1
  have hr1 : r ∈ rs := (List.mem_filter.mp hr).1
  have ho1 : other ∈ rs := (List.mem_filter.mp ho).1
  have hrK : r.id ∉ mergeKeysOf rs := by simpa using (List.mem_filter.mp hr).2
  have hoK : other.id ∉ mergeKeysOf rs := by simpa using (List.mem_filter.mp ho).2
  rcases List.mem_iff_get?.mp hr1 with ⟨i, hi⟩
  rcases List.mem_iff_get?.mp ho1 with ⟨j, hj⟩
  have hij : j ≠ i := by
    intro hc
    rw [hc, hi] at hj
    exact hrne (Option.some_inj.mp hj)
  have hraw : pickKeep other r ∈ rawProposals rs := by
    unfold rawProposals
    have h3 : pickKeep other r ∈ strategy3 (ambiguousLastnames rs) rs :=
      strategy3_mem hi hj hij hlen hrj hoj hss
    simp only [List.mem_append]
    tauto
  rcases rawProposals_kill hraw with hk | hk
  · rcases pickKeep_cases other r with hc | hc
    · rw [hc] at hk; exact hoK hk
    · rw [hc] at hk; exact hrK hk
  · rcases pickKeep_cases other r with hc | hc
    · rw [hc] at hk; exact hrK hk
    · rw [hc] at hk; exact hoK hk

theorem strategy3b_survivors_nil {rs : List Rec} :
    strategy3b (survRecs rs) = [] := by
  rw [List.eq_nil_iff_forall_not_mem]
  intro p hp
  rcases strategy3b_shape hp with ⟨r, other, hr, ho, hlen, hrj, hoj, hss, _⟩
  have hrne : r ≠ other := by
    intro hc
    have h2 := hss
    simp only [tokStrictSubset, decide_eq_true_eq] at h2
    rw [hc] at h2
    exact h2.2 h2.1
  have hr1 : r ∈ rs := (List.mem_filter.mp hr).1
  have ho1 : other ∈ rs := (List.mem_filter.mp ho).1
  have hrK : r.id ∉ mergeKeysOf rs := by simpa using (List.mem_filter.mp hr).2
  have hoK : other.id ∉ mergeKeysOf rs := by simpa using (List.mem_filter.mp ho).2
  rcases List.mem_iff_get?.mp hr1 with ⟨i, hi⟩
  rcases List.mem_iff_get?.mp ho1 with ⟨j, hj⟩
  have hij : j ≠ i := by
    intro hc
    rw [hc, hi] at hj
    exact hrne (Option.some_inj.mp hj)
  have hraw : pickKeep other r ∈ rawProposals rs := by
    unfold rawProposals
    have h3 : pickKeep other r ∈ strategy3b rs :=
      strategy3b_mem hi hj hij hlen hrj hoj hss
    simp only [List.mem_append]
    tauto
  rcases rawProposals_kill hraw with hk | hk
  · rcases pickKeep_cases other r with hc | hc
    · rw [hc] at hk; exact hoK hk
    · rw [hc] at hk; exact hrK hk
  · rcases pickKeep_cases other r with hc | hc
    · rw [hc] at hk; exact hrK hk
    · rw [hc] at hk; exact hoK hk

/-! ### Strategy 4: bucket order and the backward construction -/

theorem blockEntries_mem {records : List Rec} {e : List (List Char) × Nat}
    (h : e ∈ blockEntries records) :
    ∃ r, records.get? e.2 = some r ∧ 2 ≤ r.tokens.length ∧ r.isProper = true ∧
      ∃ k, k < r.tokens.length ∧ e.1 = r.tokens.eraseIdx k := by
  unfold blockEntries at h
  rcases List.mem_flatMap.mp h with ⟨ir, hir, he⟩
  by_cases h1 : ir.2.tokens.length < 2 ∨ ¬ ir.2.isProper = true
  · rw [if_pos (by simpa using h1)] at he
    exact absurd he (List.not_mem_nil e)
  · rw [if_neg (by simpa using h1)] at he
    rcases not_or.mp h1 with ⟨h1a, h1b⟩
    rcases List.mem_map.mp he with ⟨k, hk, hke⟩
    subst hke
    have hr : records.get? ir.1 = some ir.2 := List.mem_enum_iff_get?.mp hir
    exact ⟨ir.2, hr, by omega, by simpa using h1b, k, by simpa using hk, rfl⟩

theorem blockEntries_mem_of {records : List Rec} {i : Nat} {r : Rec} {k : Nat}
    (hi : records.get? i = some r) (hlen : 2 ≤ r.tokens.length)
    (hprop : r.isProper = true) (hk : k < r.tokens.length) :
    (r.tokens.eraseIdx k, i) ∈ blockEntries records := by
  unfold blockEntries
  apply List.mem_flatMap.mpr
  refine ⟨(i, r), List.mem_enum_iff_get?.mpr hi, ?_⟩
  show (r.tokens.eraseIdx k, i) ∈
    (if r.tokens.length < 2 ∨ ¬ r.isProper then []
     else (List.range r.tokens.length).map (fun k2 => (r.tokens.eraseIdx k2, i)))
  rw [if_neg (by simp [hprop]; omega)]
  exact List.mem_map.mpr ⟨k, List.mem_range.mpr hk, rfl⟩

theorem pairwise_le_of_const {n : Nat} : ∀ {l : List Nat},
    (∀ b ∈ l, b = n) → l.Pairwise (· ≤ ·) := by
  intro l
  induction l with
  | nil => intro _; exact List.Pairwise.nil
  | cons x xs ih =>
    intro h
    constructor
    · intro b hb
      rw [h x (List.mem_cons_self x xs), h b (List.mem_cons_of_mem x hb)]
    · exact ih (fun b hb => h b (List.mem_cons_of_mem x hb))

/-- Flattening per-index blocks over an enumeration yields indices in
non-decreasing order. -/
theorem enumFrom_flatMap_snd_mono {α β : Type} (f : Nat × α → List β) (g : β → Nat)
    (hf : ∀ p b, b ∈ f p → g b = p.1) :
    ∀ (l : List α) (n : Nat),
      (((List.enumFrom n l).flatMap f).map g).Pairwise (· ≤ ·) ∧
      ∀ b ∈ ((List.enumFrom n l).flatMap f).map g, n ≤ b := by
  intro l
  induction l with
  | nil =>
    intro n
    constructor
    · exact List.Pairwise.nil
    · intro b hb; simp at hb
  | cons x xs ih =>
    intro n
    have hx : List.enumFrom n (x :: xs) = (n, x) :: List.enumFrom (n + 1) xs := rfl
    rw [hx, List.flatMap_cons, List.map_append]
    have hall : ∀ b ∈ (f (n, x)).map g, b = n := by
      intro b hb
      rcases List.mem_map.mp hb with ⟨c, hc, hcb⟩
      rw [← hcb]
      exact hf (n, x) c hc
    constructor
    · rw [List.pairwise_append]
      refine ⟨pairwise_le_of_const hall, (ih (n + 1)).1, ?_⟩
      intro a hamem b hbmem
      have ha := hall a hamem
      have hb := (ih (n + 1)).2 b hbmem
      omega
    · intro b hb
      rcases List.mem_append.mp hb with hb1 | hb2
      · rw [hall b hb1]
      · exact Nat.le_trans (Nat.le_succ n) ((ih (n + 1)).2 b hb2)

/-- The entry indices of the blocking index are non-decreasing. -/
theorem blockEntries_snd_mono (records : List Rec) :
    ((blockEntries records).map (fun e => e.2)).Pairwise (· ≤ ·) := by
  have hf : ∀ (p : Nat × Rec) (b : List (List Char) × Nat),
      b ∈ (if p.2.tokens.length < 2 ∨ ¬ p.2.isProper then
            ([] : List (List (List Char) × Nat))
          else (List.range p.2.tokens.length).map
            (fun k => (p.2.tokens.eraseIdx k, p.1))) →
      b.2 = p.1 := by
    intro p b hb
    by_cases h1 : p.2.tokens.length < 2 ∨ ¬ p.2.isProper = true
    · rw [if_pos (by simpa using h1)] at hb
      exact absurd hb (List.not_mem_nil b)
    · rw [if_neg (by simpa using h1)] at hb
      rcases List.mem_map.mp hb with ⟨k, _, hkb⟩
      rw [← hkb]
  exact (enumFrom_flatMap_snd_mono _ _ hf records 0).1

theorem blockIndex_bucket_entry {records : List Rec}
    {kg : List (List Char) × List Nat} (hkg : kg ∈ blockIndex records)
    {i : Nat} (hi : i ∈ kg.2) : (kg.1, i) ∈ blockEntries records := by
  unfold blockIndex at hkg
  rcases List.mem_map.mp hkg with ⟨k, _, hkkg⟩
  subst hkkg
  have hi2 : i ∈ firstDedup (((blockEntries records).filter
      (fun e => decide (e.1 = k))).map (fun e => e.2)) := hi
  rw [mem_firstDedup] at hi2
  rcases List.mem_map.mp hi2 with ⟨e, he, hei⟩
  rcases e with ⟨e1, e2⟩
  have hef := List.mem_filter.mp he
  have hek : e1 = k := by simpa using hef.2
  show (k, i) ∈ blockEntries records
  rw [← hek, ← hei]
  exact hef.1

theorem blockIndex_entry_key {records : List Rec} {K : List (List Char)} {i : Nat}
    (h : (K, i) ∈ blockEntries records) :
    (K, bucketOf records K) ∈ blockIndex records := by
  unfold blockIndex
  apply List.mem_map.mpr
  refine ⟨K, ?_, rfl⟩
  rw [mem_firstDedup]
  exact List.mem_map.mpr ⟨(K, i), h, rfl⟩

theorem blockIndex_entry_bucket {records : List Rec} {K : List (List Char)} {i : Nat}
    (h : (K, i) ∈ blockEntries records) : i ∈ bucketOf records K := by
  unfold bucketOf
  rw [mem_firstDedup]
  exact List.mem_map.mpr ⟨(K, i), List.mem_filter.mpr ⟨h, by simp⟩, rfl⟩

/-- Every bucket of the blocking index is strictly increasing. -/
theorem blockIndex_bucket_sorted {records : List Rec}
    {kg : List (List Char) × List Nat} (hkg : kg ∈ blockIndex records) :
    kg.2.Pairwise (· < ·) := by
  unfold blockIndex at hkg
  rcases List.mem_map.mp hkg with ⟨k, _, hkkg⟩
  subst hkkg
  show (firstDedup (((blockEntries records).filter
      (fun e => decide (e.1 = k))).map (fun e => e.2))).Pairwise (· < ·)
  have hmono : (((blockEntries records).filter
      (fun e => decide (e.1 = k))).map (fun e => e.2)).Pairwise (· ≤ ·) :=
    (blockEntries_snd_mono records).sublist ((List.filter_sublist _).map _)
  have hle := hmono.sublist (firstDedup_sublist _)
  have hnd : (firstDedup (((blockEntries records).filter
      (fun e => decide (e.1 = k))).map (fun e => e.2))).Nodup := firstDedup_nodup _
  exact List.Pairwise.imp (fun hab => lt_of_le_of_ne hab.1 hab.2) (hle.and hnd)

theorem allPairs_lt {l : List Nat} (hl : l.Pairwise (· < ·)) {ij : Nat × Nat}
    (h : ij ∈ allPairs l) : ij.1 < ij.2 := by
  induction l with
  | nil => simp [allPairs] at h
  | cons x xs ih =>
    rcases List.pairwise_cons.mp hl with ⟨hx, hxs⟩
    simp only [allPairs, List.mem_append] at h
    rcases h with h | h
    · rcases List.mem_map.mp h with ⟨y, hy, hxy⟩
      rw [← hxy]
      exact hx y hy
    · exact ih hxs h

theorem allPairs_of_mem_lt {l : List Nat} (hl : l.Pairwise (· < ·)) {i j : Nat}
    (hi : i ∈ l) (hj : j ∈ l) (hij : i < j) : (i, j) ∈ allPairs l := by
  induction l with
  | nil => simp at hi
  | cons x xs ih =>
    rcases List.pairwise_cons.mp hl with ⟨hx, hxs⟩
    simp only [allPairs, List.mem_append]
    rcases List.mem_cons.mp hi with hix | hixs
    · left
      apply List.mem_map.mpr
      refine ⟨j, ?_, by rw [hix]⟩
      rcases List.mem_cons.mp hj with hjx | hjxs
      · exfalso
        rw [hix, hjx] at hij
        exact Nat.lt_irrefl x hij
      · exact hjxs
    · right
      apply ih hxs hixs
      rcases List.mem_cons.mp hj with hjx | hjxs
      · exfalso
        have h1 := hx i hixs
        rw [hjx] at hij
        omega
      · exact hjxs

/-- Forward structure of a strategy-4 proposal: two ordered bucket-sharing
indexed records whose fuzzy comparison emits the pair. -/
theorem strategy4_structure {records : List Rec} {p : Rec × Rec}
    (h : p ∈ strategy4 records) :
    ∃ K i j a b, i < j ∧ records.get? i = some a ∧ records.get? j = some b ∧
      (K, i) ∈ blockEntries records ∧ (K, j) ∈ blockEntries records ∧
      p ∈ fuzzyPair a b := by
  unfold strategy4 at h
  rcases List.mem_flatMap.mp h with ⟨kg, hkg, hp⟩
  by_cases hlen : kg.2.length < 2
  · rw [if_pos hlen] at hp
    exact absurd hp (List.not_mem_nil p)
  · rw [if_neg hlen] at hp
    rcases List.mem_flatMap.mp hp with ⟨ij, hij, hpj⟩
    have hij12 := allPairs_mem hij
    have hlt : ij.1 < ij.2 := allPairs_lt (blockIndex_bucket_sorted hkg) hij
    have he1 : (kg.1, ij.1) ∈ blockEntries records :=
      blockIndex_bucket_entry hkg hij12.1
    have he2 : (kg.1, ij.2) ∈ blockEntries records :=
      blockIndex_bucket_entry hkg hij12.2
    rcases hga : records.get? ij.1 with _ | a
    · rw [hga] at hpj
      rcases hgb : records.get? ij.2 with _ | b <;> rw [hgb] at hpj <;>
        simp only at hpj <;> exact absurd hpj (List.not_mem_nil p)
    · rcases hgb : records.get? ij.2 with _ | b
      · rw [hga, hgb] at hpj
        simp only at hpj
        exact absurd hpj (List.not_mem_nil p)
      · rw [hga, hgb] at hpj
        simp only at hpj
        exact ⟨kg.1, ij.1, ij.2, a, b, hlt, hga, hgb, he1, he2, hpj⟩

/-- Backward construction for strategy 4. -/
theorem strategy4_mem_bwd {records : List Rec} {K : List (List Char)} {i j : Nat}
    {a b : Rec} {p : Rec × Rec}
    (hi : records.get? i = some a) (hj : records.get? j = some b) (hij : i < j)
    (hea : (K, i) ∈ blockEntries records) (heb : (K, j) ∈ blockEntries records)
    (hfp : p ∈ fuzzyPair a b) : p ∈ strategy4 records := by
  have hKB := blockIndex_entry_key hea
  have hiB := blockIndex_entry_bucket hea
  have hjB := blockIndex_entry_bucket heb
  have hsorted : (bucketOf records K).Pairwise (· < ·) :=
    blockIndex_bucket_sorted hKB
  have hblen : 2 ≤ (bucketOf records K).length :=
    two_mem_le_length hiB hjB (Nat.ne_of_lt hij)
  have hab : (i, j) ∈ allPairs (bucketOf records K) :=
    allPairs_of_mem_lt hsorted hiB hjB hij
  unfold strategy4
  apply List.mem_flatMap.mpr
  refine ⟨(K, bucketOf records K), hKB, ?_⟩
  show p ∈ (if (bucketOf records K).length < 2 then []
    else (allPairs (bucketOf records K)).flatMap (fun ij2 =>
      match records.get? ij2.1, records.get? ij2.2 with
      | some a2, some b2 => fuzzyPair a2 b2
      | _, _ => []))
  rw [if_neg (by omega)]
  apply List.mem_flatMap.mpr
  refine ⟨(i, j), hab, ?_⟩
  show p ∈ (match records.get? i, records.get? j with
    | some a2, some b2 => fuzzyPair a2 b2
    | _, _ => [])
  rw [hi, hj]
  simp only
  exact hfp

/-- Strategy 4 finds nothing on the survivors of one pass. -/
theorem strategy4_survivors_nil {rs : List Rec} :
    strategy4 (survRecs rs) = [] := by
  rw [List.eq_nil_iff_forall_not_mem]
  intro p hp
  rcases strategy4_structure hp with ⟨K, i, j, a, b, hlt, hga, hgb, he1, he2, hfp⟩
  rcases blockEntries_mem he1 with ⟨a', hga', hlen_a, hprop_a, ka, hka, hKa⟩
  rcases blockEntries_mem he2 with ⟨b', hgb', hlen_b, hprop_b, kb, hkb, hKb⟩
  have haa : a' = a := Option.some_inj.mp (hga'.symm.trans hga)
  have hbb : b' = b := Option.some_inj.mp (hgb'.symm.trans hgb)
  subst haa
  subst hbb
  have hKa' : K = a'.tokens.eraseIdx ka := hKa
  have hKb' : K = b'.tokens.eraseIdx kb := hKb
  have hsub : (survRecs rs).Sublist rs := List.filter_sublist rs
  rcases sublist_get?_pair hsub hlt hga hgb with ⟨i', j', hlt', hga2, hgb2⟩
  have hea2 : (K, i') ∈ blockEntries rs := by
    rw [hKa']
    exact blockEntries_mem_of hga2 hlen_a hprop_a hka
  have heb2 : (K, j') ∈ blockEntries rs := by
    rw [hKb']
    exact blockEntries_mem_of hgb2 hlen_b hprop_b hkb
  have hraw : p ∈ rawProposals rs := by
    unfold rawProposals
    have h4 : p ∈ strategy4 rs := strategy4_mem_bwd hga2 hgb2 hlt' hea2 heb2 hfp
    simp only [List.mem_append]
    tauto
  have hpk : p = pickKeep a' b' := (fuzzyPair_shape hfp).2.2.2.2
  have haS : a' ∈ survRecs rs := List.get?_mem hga
  have hbS : b' ∈ survRecs rs := List.get?_mem hgb
  have haK : a'.id ∉ mergeKeysOf rs := by simpa using (List.mem_filter.mp haS).2
  have hbK : b'.id ∉ mergeKeysOf rs := by simpa using (List.mem_filter.mp hbS).2
  rcases rawProposals_kill hraw with hk | hk <;>
    rcases pickKeep_cases a' b' with hc | hc <;> rw [hpk, hc] at hk
  · exact haK hk
  · exact hbK hk
  · exact hbK hk
  · exact haK hk

/-! ### Idempotence of the resolution pass -/

/-- No strategy proposes anything on the survivors of one pass. -/
theorem rawProposals_survivors_nil {rs : List Rec}
    (hIds : (rs.map (fun r => r.id)).Nodup)
    (hTok : ∀ r ∈ rs, r.tokens = tokenSetOf r.normL) :
    rawProposals (survRecs rs) = [] := by
  unfold rawProposals
  rw [strategy1_survivors_nil hIds, strategy2_survivors_nil hIds,
    strategy2b_survivors_nil hIds hTok, strategy3_survivors_nil,
    strategy3b_survivors_nil, strategy4_survivors_nil]
  rfl

/-- `resolve_entities` on loaded tables, with its branches spelled out. -/
theorem resolveCore_eq (es : List Entity) (rt : RelTable) :
    resolveCore es rt =
      if findMergeCandidates es rt.rows = [] then
        (es, rt, ⟨"completed", es.length, es.length, rt.rows.length,
          rt.rows.length, 0⟩)
      else
        ((applyMerges es rt (findMergeCandidates es rt.rows)).1,
         (applyMerges es rt (findMergeCandidates es rt.rows)).2,
         ⟨"completed", es.length,
           (applyMerges es rt (findMergeCandidates es rt.rows)).1.length,
           rt.rows.length,
           (applyMerges es rt (findMergeCandidates es rt.rows)).2.rows.length,
           (findMergeCandidates es rt.rows).length⟩) := rfl

/-- C3: resolution is idempotent.  With duplicate-free entity ids, running
resolution a second time on the output of a first run finds zero merge
candidates: the second run returns the entity table and the relationship
table unchanged and reports `merges = 0`. -/
theorem c3_resolution_idempotent (es : List Entity) (rt : RelTable)
    (hids : (es.map (fun e => e.id)).Nodup) :
    (resolveCore (resolveCore es rt).1 (resolveCore es rt).2.1).1 =
        (resolveCore es rt).1 ∧
      (resolveCore (resolveCore es rt).1 (resolveCore es rt).2.1).2.1 =
        (resolveCore es rt).2.1 ∧
      (resolveCore (resolveCore es rt).1 (resolveCore es rt).2.1).2.2.merges = 0 := by
  have hIds2 : ((recordsOf es).map (fun r => r.id)).Nodup := recordsOf_id_nodup hids
  have hTok2 : ∀ r ∈ recordsOf es, r.tokens = tokenSetOf r.normL :=
    fun r hr => recordsOf_tokens_normL hr
  suffices h : findMergeCandidates (resolveCore es rt).1
      ((resolveCore es rt).2.1).rows = [] by
    rw [resolveCore_eq (resolveCore es rt).1 (resolveCore es rt).2.1, if_pos h]
    exact ⟨rfl, rfl, rfl⟩
  by_cases hpz : findMergeCandidates es rt.rows = []
  · rw [resolveCore_eq es rt, if_pos hpz]
    exact hpz
  · have hlen2 : ¬ (recordsOf es).length < 2 := by
      intro hl
      apply hpz
      show (if (recordsOf es).length < 2 then ([] : List (String × String))
        else dedupPairs ((rawProposals (recordsOf es)).map
          (fun p => (p.1.id, p.2.id)))) = []
      rw [if_pos hl]
    have hpairs : findMergeCandidates es rt.rows =
        dedupPairs ((rawProposals (recordsOf es)).map
          (fun p => (p.1.id, p.2.id))) := by
      show (if (recordsOf es).length < 2 then ([] : List (String × String))
        else dedupPairs ((rawProposals (recordsOf es)).map
          (fun p => (p.1.id, p.2.id)))) = _
      rw [if_neg hlen2]
    rw [resolveCore_eq es rt, if_neg hpz]
    have happ1 : (applyMerges es rt (findMergeCandidates es rt.rows)).1 =
        survivingEntities es (findMergeCandidates es rt.rows) := by
      unfold applyMerges
      rw [if_neg hpz]
    rw [happ1]
    show (if (recordsOf (survivingEntities es (findMergeCandidates es rt.rows))).length < 2
      then ([] : List (String × String))
      else dedupPairs ((rawProposals (recordsOf (survivingEntities es
        (findMergeCandidates es rt.rows)))).map (fun p => (p.1.id, p.2.id)))) = []
    have hsurv : recordsOf (survivingEntities es (findMergeCandidates es rt.rows)) =
        survRecs (recordsOf es) := by
      rw [recordsOf_surviving es (findMergeCandidates es rt.rows), hpairs]
      rfl
    rw [hsurv]
    by_cases h2 : (survRecs (recordsOf es)).length < 2
    · rw [if_pos h2]
    · rw [if_neg h2, rawProposals_survivors_nil hIds2 hTok2]
      rfl

/-- C3 witness: the idempotence theorem at a concrete merging snapshot. -/
theorem c3_resolution_idempotent_witness :
    (smithEntities.map (fun e => e.id)).Nodup ∧
      ((resolveCore (resolveCore smithEntities bobRels).1
          (resolveCore smithEntities bobRels).2.1).1 =
        (resolveCore smithEntities bobRels).1 ∧
      (resolveCore (resolveCore smithEntities bobRels).1
          (resolveCore smithEntities bobRels).2.1).2.1 =
        (resolveCore smithEntities bobRels).2.1 ∧
      (resolveCore (resolveCore smithEntities bobRels).1
          (resolveCore smithEntities bobRels).2.1).2.2.merges = 0) :=
  ⟨by decide, c3_resolution_idempotent smithEntities bobRels (by decide)⟩

end EntityResolution
